import Mathlib

/-!
Shallow embedding, in Lean 4, of the schema-introspection and dynamic
projection engine of `src/internal/api/viewsets.py`, together with theorems
settling the frozen claims about it.

Strings are modelled as lists of characters (`Str`), restricted to the ASCII
behaviour of the Python string operations involved (`str.lower`,
`str.title`, the regular expressions `\W` and `[^a-zA-Z0-9]`).  Python
dictionaries are modelled as association lists whose update keeps the
position of an existing key, matching insertion-order semantics.  Fallible
Python code is modelled with `Except PyErr`; an uncaught exception is an
`Except.error`.
-/

namespace DBQB

abbrev Str := List Char

/-- Word characters in the sense of the regular expression `\W` used at
viewsets.py line 62: ASCII letters, digits and the underscore. -/
def isWordChar (c : Char) : Bool := c.isAlpha || c.isDigit || c == '_'

/-- Python `str.lower` for the ASCII model (viewsets.py line 52). -/
def pyLower (l : Str) : Str := l.map Char.toLower

/-- Bool-valued test that a list starts with the given pattern,
modelling Python `str.startswith`. -/
def hasPrefixL : Str → Str → Bool
  | _, [] => true
  | [], _ :: _ => false
  | c :: cs, p :: ps => c == p && hasPrefixL cs ps

/-- Bool-valued test that a list ends with the given pattern,
modelling Python `str.endswith`. -/
def hasSuffixL (l s : Str) : Bool := hasPrefixL l.reverse s.reverse

/-- Python `str.removesuffix`: drop the suffix when present. -/
def removeSuffixL (l s : Str) : Str :=
  if hasSuffixL l s then l.take (l.length - s.length) else l

/-- Whether the list contains two consecutive underscores, modelling
`new_name.find(LOOKUP_SEP) >= 0` with `LOOKUP_SEP = "__"` (line 66). -/
def hasDoubleUnderscore : Str → Bool
  | '_' :: '_' :: _ => true
  | _ :: rest => hasDoubleUnderscore rest
  | [] => false

/-- Collapse every run of consecutive underscores to a single underscore.
The flag records whether the previously kept character was an underscore.
The while loop at viewsets.py lines 67-68 repeatedly replaces `"__"` by
`"_"` until no occurrence is left; that fixed point is exactly the
collapse of each maximal underscore run, computed here in one pass. -/
def collapseSep : Bool → Str → Str
  | _, [] => []
  | prevU, c :: rest =>
    if c == '_' then
      if prevU then collapseSep true rest
      else c :: collapseSep true rest
    else c :: collapseSep false rest

/-- Decimal digit character for a value below ten. -/
def digitChar : Nat → Char
  | 0 => '0' | 1 => '1' | 2 => '2' | 3 => '3' | 4 => '4'
  | 5 => '5' | 6 => '6' | 7 => '7' | 8 => '8' | 9 => '9'
  | _ => '0'

/-- Fuel-driven decimal digit expansion; the fuel only bounds recursion
depth and `n + 1` is always enough. -/
def natDigitsAux : Nat → Nat → Str
  | 0, _ => []
  | fuel + 1, n =>
    if n < 10 then [digitChar n]
    else natDigitsAux fuel (n / 10) ++ [digitChar (n % 10)]

/-- Decimal digits of a natural number, as produced by the Python format
`"%d" % num` (viewsets.py lines 93-95). -/
def natDigits (n : Nat) : Str := natDigitsAux (n + 1) n

/-- Numeric value of a decimal digit character. -/
def digitVal (c : Char) : Nat :=
  if c == '0' then 0 else if c == '1' then 1 else if c == '2' then 2
  else if c == '3' then 3 else if c == '4' then 4 else if c == '5' then 5
  else if c == '6' then 6 else if c == '7' then 7 else if c == '8' then 8
  else 9

/-- Left inverse of `natDigits`, used to prove it injective. -/
def parseDigits (l : Str) : Nat := l.foldl (fun a c => a * 10 + digitVal c) 0

/-- The Python reserved words recognised by `keyword.iskeyword`
(viewsets.py line 83). -/
def pythonKeywords : List Str :=
  ["False".toList, "None".toList, "True".toList, "and".toList, "as".toList,
   "assert".toList, "async".toList, "await".toList, "break".toList,
   "class".toList, "continue".toList, "def".toList, "del".toList,
   "elif".toList, "else".toList, "except".toList, "finally".toList,
   "for".toList, "from".toList, "global".toList, "if".toList,
   "import".toList, "in".toList, "is".toList, "lambda".toList,
   "nonlocal".toList, "not".toList, "or".toList, "pass".toList,
   "raise".toList, "return".toList, "try".toList, "while".toList,
   "with".toList, "yield".toList]

/-- Model of `keyword.iskeyword`. -/
def isPyKeyword (l : Str) : Bool := pythonKeywords.contains l

/-- A valid Python identifier in the ASCII model: non-empty, the first
character a letter or underscore, the rest word characters. -/
def isValidIdent : Str → Bool
  | [] => false
  | c :: rest => (c.isAlpha || c == '_') && rest.all isWordChar

def idSuffix : Str := "_id".toList
def fieldWord : Str := "field".toList
def underscoreField : Str := "_field".toList
def numberWord : Str := "number_".toList

/-- The candidate name `"%s_%d" % (new_name, num)` used by the collision
loop at viewsets.py lines 92-95. -/
def conflictSuffix (name : Str) (num : Nat) : Str := name ++ '_' :: natDigits num

/-- Fuel-driven search for the smallest free numeric suffix, modelling the
while loop at viewsets.py lines 92-94.  A fuel of `used.length + 1` always
suffices because the candidates are pairwise distinct. -/
def findFreeNum (name : Str) (used : List Str) : Nat → Nat → Nat
  | 0, num => num
  | fuel + 1, num =>
    if conflictSuffix name num ∈ used then findFreeNum name used fuel (num + 1)
    else num

/-- Stage of `normalize_col_name` after lowering and the relation-specific
`"_id"` suffix stripping (viewsets.py lines 52-60). -/
def nn1 (col_name : Str) (is_relation : Bool) : Str :=
  if is_relation && hasSuffixL (pyLower col_name) idSuffix then
    removeSuffixL (pyLower col_name) idSuffix
  else pyLower col_name

/-- Stage after the substitution `re.subn(r"\W", "_", new_name)`
(viewsets.py line 62). -/
def nn2 (col_name : Str) (is_relation : Bool) : Str :=
  (nn1 col_name is_relation).map (fun c => if isWordChar c then c else '_')

/-- Stage after collapsing `"__"` runs (viewsets.py lines 66-68). -/
def nn3 (col_name : Str) (is_relation : Bool) : Str :=
  if hasDoubleUnderscore (nn2 col_name is_relation) then
    collapseSep false (nn2 col_name is_relation)
  else nn2 col_name is_relation

/-- Stage after prefixing `"field"` to a leading underscore
(viewsets.py lines 75-77). -/
def nn4 (col_name : Str) (is_relation : Bool) : Str :=
  if hasPrefixL (nn3 col_name is_relation) ['_'] then
    fieldWord ++ nn3 col_name is_relation
  else nn3 col_name is_relation

/-- Stage after suffixing `"field"` to a trailing underscore
(viewsets.py lines 79-81). -/
def nn5 (col_name : Str) (is_relation : Bool) : Str :=
  if hasSuffixL (nn4 col_name is_relation) ['_'] then
    nn4 col_name is_relation ++ fieldWord
  else nn4 col_name is_relation

/-- Stage after the reserved-word fix (viewsets.py lines 83-85). -/
def nn6 (col_name : Str) (is_relation : Bool) : Str :=
  if isPyKeyword (nn5 col_name is_relation) then
    nn5 col_name is_relation ++ underscoreField
  else nn5 col_name is_relation

/-- Diagnostic notes accumulated by `normalize_col_name`; only their
presence matters downstream (line 98). -/
inductive FieldNote where
  | lowercased
  | unsuitableChars
  | collapsedSep
  | leadingSep
  | trailingSep
  | reservedWord
  | digitStart
  | nameConflict
deriving DecidableEq

/-- Result triple of `normalize_col_name`: the new name, the optional
`db_column` entry of `field_params`, and the notes. -/
structure NormResult where
  newName : Str
  dbColumn : Option Str
  notes : List FieldNote
deriving DecidableEq

/-- Stage after the leading-digit fix (viewsets.py lines 87-89); the
empty case is unreachable when the source does not crash. -/
def nn7 (col_name : Str) (is_relation : Bool) : Str :=
  match nn6 col_name is_relation with
  | [] => []
  | c0 :: rest => if c0.isDigit then numberWord ++ (c0 :: rest) else c0 :: rest

/-- Stage after collision resolution against the used names
(viewsets.py lines 91-96). -/
def nn8 (col_name : Str) (used_column_names : List Str) (is_relation : Bool) : Str :=
  if used_column_names.contains (nn7 col_name is_relation) then
    conflictSuffix (nn7 col_name is_relation)
      (findFreeNum (nn7 col_name is_relation) used_column_names
        (used_column_names.length + 1) 0)
  else nn7 col_name is_relation

/-- The diagnostic notes of `normalize_col_name`, in emission order; each
entry corresponds to one `field_notes.append` of the source. -/
def nnNotes (col_name : Str) (used_column_names : List Str) (is_relation : Bool) :
    List FieldNote :=
  (if pyLower col_name != col_name then [FieldNote.lowercased] else []) ++
  (if ((nn1 col_name is_relation).filter (fun c => !isWordChar c)).length > 0 then
    [FieldNote.unsuitableChars] else []) ++
  (if hasDoubleUnderscore (nn2 col_name is_relation)
      && hasDoubleUnderscore (pyLower col_name) then
    [FieldNote.collapsedSep] else []) ++
  (if hasPrefixL (nn3 col_name is_relation) ['_'] then [FieldNote.leadingSep] else []) ++
  (if hasSuffixL (nn4 col_name is_relation) ['_'] then [FieldNote.trailingSep] else []) ++
  (if isPyKeyword (nn5 col_name is_relation) then [FieldNote.reservedWord] else []) ++
  (if (nn6 col_name is_relation).head?.any Char.isDigit then
    [FieldNote.digitStart] else []) ++
  (if used_column_names.contains (nn7 col_name is_relation) then
    [FieldNote.nameConflict] else [])

/-- Shallow embedding of `normalize_col_name` (viewsets.py lines 45-101),
assembled from the stages `nn1`-`nn8`.  Returns `none` when the source
raises `IndexError` at line 87 (`new_name[0]` on an empty name); the name
is empty at line 87 exactly when `nn6` is empty.  The `db_column` entry
of `field_params` is set at line 60 for a relation column without the
`"_id"` suffix and overwritten at lines 98-99 when the final name differs
from the raw name and at least one note was recorded. -/
def normalize_col_name (col_name : Str) (used_column_names : List Str)
    (is_relation : Bool) : Option NormResult :=
  match nn6 col_name is_relation with
  | [] => none
  | _ :: _ =>
    let name8 := nn8 col_name used_column_names is_relation
    let notes := nnNotes col_name used_column_names is_relation
    let db_col0 : Option Str :=
      if is_relation && !hasSuffixL (pyLower col_name) idSuffix then some col_name
      else none
    some ⟨name8,
      (if col_name != name8 && !notes.isEmpty then some col_name else db_col0),
      notes⟩

/-- Python `str.title` for the ASCII model: a letter is uppercased when the
preceding character is not a letter, lowercased otherwise.  The flag
records whether the previous character was a letter. -/
def titleAux : Bool → Str → Str
  | _, [] => []
  | prevAlpha, c :: rest =>
    if c.isAlpha then
      (if prevAlpha then c.toLower else c.toUpper) :: titleAux true rest
    else c :: titleAux false rest

def pyTitle (l : Str) : Str := titleAux false l

/-- Shallow embedding of `normalize_table_name` (viewsets.py lines 37-39):
title-case, then strip every character outside `[a-zA-Z0-9]`. -/
def normalize_table_name (table_name : Str) : Str :=
  (pyTitle table_name).filter Char.isAlphanum

/-! ## Association lists modelling Python dictionaries -/

/-- Update an association list at a key, replacing the value at the first
occurrence of the key and otherwise appending the binding at the end.
This is exactly the insertion-order behaviour of a Python dict assignment. -/
def updAssoc {α : Type} : List (Str × α) → Str → α → List (Str × α)
  | [], k, v => [(k, v)]
  | (k1, v1) :: rest, k, v =>
    if k1 == k then (k, v) :: rest else (k1, v1) :: updAssoc rest k v

/-- Python dict lookup on an association list: the value at the first
occurrence of the key. -/
def lookupA {α : Type} : List (Str × α) → Str → Option α
  | [], _ => none
  | (k1, v) :: rest, k => if k1 == k then some v else lookupA rest k

/-- The key sequence of an association list. -/
def keysOf {α : Type} (l : List (Str × α)) : List Str := l.map (·.1)

/-- Keep the first occurrence of each element, dropping later duplicates;
the accumulator holds the elements already seen. -/
def dedupFirstAux : List Str → List Str → List Str
  | _, [] => []
  | seen, x :: xs =>
    if seen.contains x then dedupFirstAux seen xs
    else x :: dedupFirstAux (x :: seen) xs

def dedupFirst (l : List Str) : List Str := dedupFirstAux [] l

/-- Python string comparison (code-point lexicographic) as a Bool-valued
`less than or equal`. -/
def lexLe : Str → Str → Bool
  | [], _ => true
  | _ :: _, [] => false
  | a :: as1, b :: bs => a < b || (a == b && lexLe as1 bs)

def insertSorted (x : Str) : List Str → List Str
  | [] => [x]
  | y :: ys => if lexLe x y then x :: y :: ys else y :: insertSorted x ys

/-- Stable insertion sort by `lexLe`, modelling Python `sorted` on strings
(viewsets.py line 386). -/
def sortStrs (l : List Str) : List Str := l.foldr insertSorted []

/-! ## Errors and the database introspection interface -/

/-- Python exceptions that the embedded code can raise or observe.
`notImplementedError` marks a missing introspection capability,
`operationalError` a connectivity failure. -/
inductive PyErr where
  | notImplementedError
  | operationalError
  | valueError
  | indexError
deriving DecidableEq

/-- `TableInfo` rows returned by `get_table_list`. -/
structure TableInfo where
  name : Str
  type : Str
deriving DecidableEq

/-- Cursor description rows (`FieldInfo`) consumed by the scan loop and by
`get_field_type`. -/
structure FieldInfo where
  name : Str
  type_code : Nat
  display_size : Option Int
  precision : Option Int
  scale : Option Int
  collation : Option Str
deriving DecidableEq

/-- One constraint record as used by `__get_unique_columns`. -/
structure Constraint where
  columns : List Str
  unique : Bool
deriving DecidableEq

/-- The external relational driver, as consumed by the code: each
introspection operation may fail, and `get_field_type_map` is the
driver's type-code lookup whose miss raises `KeyError` (modelled as
`none`).  `table_rows` abstracts the full-table read issued per model;
rows are opaque identifiers.  `open_cursor` abstracts `db.cursor()`. -/
structure Database where
  get_table_list : Except PyErr (List TableInfo)
  get_table_description : Str → Except PyErr (List FieldInfo)
  get_primary_key_columns : Str → Except PyErr (List Str)
  get_primary_key_column : Str → Except PyErr (Option Str)
  get_relations : Str → Except PyErr (List (Str × (Str × Str)))
  get_constraints : Str → Except PyErr (List Constraint)
  get_field_type_map : Nat → Option Str
  table_rows : Str → Except PyErr (List Nat)
  open_cursor : Except PyErr Unit

/-! ## Field parameters and type inference -/

/-- The `extra_params` dictionary accumulated per column.  Dictionary keys
become optional fields; the two flag keys are Booleans because the code
only ever stores `True` in them. -/
structure FieldParams where
  db_column : Option Str
  primary_key : Bool
  unique : Bool
  to_field : Option Str
  max_length : Option Int
  db_collation : Option Str
  max_digits : Option Int
  decimal_places : Option Int
deriving DecidableEq

def emptyParams : FieldParams := ⟨none, false, false, none, none, none, none, none⟩

/-- Notes produced by `get_field_type`. -/
inductive TypeNote where
  | guessedType
  | guessedDecimal
deriving DecidableEq

/-- The `field_params` dictionary produced by `get_field_type`. -/
structure TypeParams where
  max_length : Option Int
  db_collation : Option Str
  max_digits : Option Int
  decimal_places : Option Int
deriving DecidableEq

/-- Shallow embedding of `get_field_type` (viewsets.py lines 104-141).
The driver lookup miss (`KeyError`) falls back to `"TextField"` with a
guess note; `CharField` gains `max_length` from a positive display size;
text kinds inherit a collation; `DecimalField` fills missing precision or
scale with the defaults 10 and 5. -/
def get_field_type (db : Database) (row : FieldInfo) :
    Str × TypeParams × List TypeNote :=
  let (field_type, notes0) :=
    match db.get_field_type_map row.type_code with
    | some t => (t, ([] : List TypeNote))
    | none => ("TextField".toList, [TypeNote.guessedType])
  let p0 : TypeParams := ⟨none, none, none, none⟩
  let p1 :=
    match row.display_size with
    | some size =>
      if field_type == "CharField".toList && size != 0 && size > 0 then
        { p0 with max_length := some size }
      else p0
    | none => p0
  let p2 :=
    match row.collation with
    | some coll =>
      if (field_type == "CharField".toList || field_type == "TextField".toList)
          && coll != ([] : Str) then
        { p1 with db_collation := some coll }
      else p1
    | none => p1
  if field_type == "DecimalField".toList then
    match row.precision, row.scale with
    | some prec, some sc =>
      (field_type, { p2 with max_digits := some prec, decimal_places := some sc }, notes0)
    | prec?, sc? =>
      (field_type,
        { p2 with max_digits := some (prec?.getD 10), decimal_places := some (sc?.getD 5) },
        notes0 ++ [TypeNote.guessedDecimal])
  else (field_type, p2, notes0)

/-- Merge of `extra_params.update(field_params)` at line 491: the keys
produced by `get_field_type` are disjoint from those already present. -/
def mergeTypeParams (ep : FieldParams) (tp : TypeParams) : FieldParams :=
  { ep with max_length := tp.max_length, db_collation := tp.db_collation,
            max_digits := tp.max_digits, decimal_places := tp.decimal_places }

/-! ## Dynamically built Django model and serializer values

`type(...)` in the source creates a fresh class object at each call; here a
`DjModel` value is the structural content of one such class: its name, its
backing table and its field dictionary.  A foreign-key field embeds the
snapshot of the target model class stored in its `to` option. -/

mutual
inductive DjModel : Type where
  | mk (name : Str) (table : Str) (fields : List (Str × DjField))

inductive DjField : Type where
  | prim (ftype : Str) (params : FieldParams)
  | fk (db_column : Str) (to_field : Str) (to_model : DjModel)
end

def DjModel.fieldsOf : DjModel → List (Str × DjField)
  | .mk _ _ fs => fs

def DjModel.nameOf : DjModel → Str
  | .mk n _ _ => n

/-- Structural content of a dynamically created DRF `ModelSerializer`
class: its name, the model in `Meta.model`, the names in `Meta.fields`,
and the nested serializer instances set as class attributes. -/
inductive SerializerR : Type where
  | mk (name : Str) (model : DjModel) (fields : List Str)
       (nested : List (Str × SerializerR))

def SerializerR.fieldsOf : SerializerR → List Str
  | .mk _ _ fs _ => fs

/-! ## QueryForeginModel, QueryPrimitiveFieldModel, QueryModel -/

/-- State of one `QueryForeginModel` (viewsets.py lines 169-200).  After
construction the field class is always `models.ForeignKey`; the options
dictionary holds `db_column` and `to_field`, and `to` is set only by
`update_foregin_model` during linking. -/
structure QueryForeginModel where
  rel_to : Str
  db_column : Str
  to_field : Str
  to_model : Option DjModel
  serializer : Option SerializerR

/-- Constructor of `QueryForeginModel`: `FIELD_MAPPING_CLASS` maps only
`"ForeignKey"` to a subclass of `models.ForeignKey`, so any other
`rel_type` (in particular `"OneToOneField"`, absent from the mapping)
raises `ValueError` (lines 173-175). -/
def mkQueryForeginModel (rel_type rel_to db_column ref_db_column : Str) :
    Except PyErr QueryForeginModel :=
  if rel_type == "ForeignKey".toList then
    .ok ⟨rel_to, db_column, ref_db_column, none, none⟩
  else .error .valueError

/-- `QueryForeginModel.make_field` (lines 191-194): a field is produced
only when the `to` option has been set by linking. -/
def QueryForeginModel.make_field (m : QueryForeginModel) : Option DjField :=
  match m.to_model with
  | some target => some (.fk m.db_column m.to_field target)
  | none => none

/-- The field-type names present in `FIELD_MAPPING_CLASS` (lines 144-153). -/
def mappedFieldTypes : List Str :=
  ["CharField".toList, "IntegerField".toList, "BooleanField".toList,
   "DateTimeField".toList, "ForeignKey".toList, "AutoField".toList,
   "BigAutoField".toList, "TextField".toList]

/-- State of one `QueryPrimitiveFieldModel` (lines 156-166). -/
structure QueryPrimitiveFieldModel where
  field_type : Str
  options : FieldParams
deriving DecidableEq

/-- Constructor of `QueryPrimitiveFieldModel`: an unmapped field type
raises `ValueError` (lines 158-160). -/
def mkQueryPrimitiveFieldModel (field_type : Str) (options : FieldParams) :
    Except PyErr QueryPrimitiveFieldModel :=
  if mappedFieldTypes.contains field_type then .ok ⟨field_type, options⟩
  else .error .valueError

/-- State of one `QueryModel` (lines 203-290): the model name, the backing
table, and the two field dictionaries. -/
structure QueryModel where
  model_name : Str
  table_name : Str
  query_foregin_model : List (Str × QueryForeginModel)
  query_primitive_model : List (Str × QueryPrimitiveFieldModel)

/-- `QueryModel.__get_fields` (lines 233-246): primitive fields first,
then each foreign field whose `make_field` is not `None`. -/
def QueryModel.get_fields (qm : QueryModel) : List (Str × DjField) :=
  let base := qm.query_primitive_model.foldl
    (fun acc p => updAssoc acc p.1 (DjField.prim p.2.field_type p.2.options)) []
  qm.query_foregin_model.foldl
    (fun acc p =>
      match p.2.make_field with
      | some f => updAssoc acc p.1 f
      | none => acc) base

/-- `QueryModel.__get_serializer_fields` (lines 248-259): the names to
serialize are the primitive keys plus each foreign name whose serializer
was attached by linking. -/
def QueryModel.get_serializer_fields (qm : QueryModel) :
    List Str × List (Str × SerializerR) :=
  qm.query_foregin_model.foldl
    (fun st p =>
      match p.2.serializer with
      | some s => (st.1 ++ [p.1], st.2 ++ [(p.1, s)])
      | none => st)
    (qm.query_primitive_model.map (·.1), [])

/-- `QueryModel.get_django_model` (lines 261-272): a fresh class value
from the current field dictionaries. -/
def QueryModel.get_django_model (qm : QueryModel) : DjModel :=
  .mk qm.model_name qm.table_name qm.get_fields

/-- `QueryModel.get_drf_serializer` (lines 274-290). -/
def QueryModel.get_drf_serializer (qm : QueryModel) (model_cls : DjModel) :
    SerializerR :=
  .mk (qm.model_name ++ "Serializer".toList) model_cls
    qm.get_serializer_fields.1 qm.get_serializer_fields.2

abbrev Graph := List (Str × QueryModel)

/-! ## DatabaseScanner -/

/-- `DatabaseScanner.__get_table_primary_key_column_name` (lines 338-342):
calls `get_primary_key_columns` with NO exception handler, so a missing
capability propagates; keeps only the first column. -/
def get_table_primary_key_column_name (db : Database) (table : Str) :
    Except PyErr (Option Str) :=
  (db.get_primary_key_columns table).map List.head?

/-- `DatabaseScanner.__get_table_relations` (lines 344-349): catches
`NotImplementedError` only, substituting an empty mapping. -/
def get_table_relations (db : Database) (table : Str) :
    Except PyErr (List (Str × (Str × Str))) :=
  match db.get_relations table with
  | .error .notImplementedError => .ok []
  | other => other

/-- `DatabaseScanner.__get_unique_columns` (lines 351-360): catches
`NotImplementedError` only, then keeps the first column of each
single-column unique constraint. -/
def get_unique_columns (db : Database) (table : Str) :
    Except PyErr (List Str) :=
  let cs : Except PyErr (List Constraint) :=
    match db.get_constraints table with
    | .error .notImplementedError => .ok []
    | other => other
  cs.map (fun l =>
    (l.filter (fun c => c.unique && c.columns.length == 1)).filterMap
      (fun c => c.columns.head?))

/-- One iteration of the column loop of `scan_all_tables`
(viewsets.py lines 403-499).  The state is the pair
`(used_column_names, query_model)`.  A relation column is registered in
the foreign dictionary under its normalized `att_name`; a non-relation
column is registered in the primitive dictionary under its raw
`column_name` (line 494).  The dead local `column_to_field_name` and the
unused `field_type` string of lines 449-452 are omitted. -/
def scanRow (db : Database) (table : Str) (primary_key_column : Option Str)
    (unique_columns : List Str) (relations : List (Str × (Str × Str)))
    (st : List Str × QueryModel) (row : FieldInfo) :
    Except PyErr (List Str × QueryModel) := do
  let used := st.1
  let qm := st.2
  let column_name := row.name
  let relEntry := lookupA relations column_name
  match normalize_col_name column_name used relEntry.isSome with
  | none => .error .indexError
  | some res =>
    let att_name := res.newName
    let used1 := used ++ [att_name]
    let ep0 : FieldParams := { emptyParams with db_column := res.dbColumn }
    let ep1 :=
      if some column_name == primary_key_column then
        { ep0 with primary_key := true }
      else if unique_columns.contains column_name then
        { ep0 with unique := true }
      else ep0
    match relEntry with
    | some (ref_db_column, ref_db_table) => do
      -- lines 428-447: extra_params.pop("unique"), rel_type choice,
      -- to_field override, and the self sentinel
      let wasUnique := ep1.unique
      let ep2 := { ep1 with unique := false }
      let (rel_type, _ep3) ←
        if wasUnique || ep2.primary_key then
          pure ("OneToOneField".toList, ep2)
        else do
          let ref_pk_column ← db.get_primary_key_column ref_db_table
          let ep3 :=
            match ref_pk_column with
            | some c =>
              if c != ([] : Str) && c != ref_db_column then
                { ep2 with to_field := some ref_db_column }
              else ep2
            | none => ep2
          pure ("ForeignKey".toList, ep3)
      let rel_to :=
        if ref_db_table == table then "self".toList
        else normalize_table_name ref_db_table
      let fm ← mkQueryForeginModel rel_type rel_to column_name ref_db_column
      pure (used1,
        { qm with query_foregin_model := updAssoc qm.query_foregin_model att_name fm })
    | none => do
      let (field_type, field_params, _notes) := get_field_type db row
      let ep4 := mergeTypeParams ep1 field_params
      let p ← mkQueryPrimitiveFieldModel field_type ep4
      pure (used1,
        { qm with query_primitive_model := updAssoc qm.query_primitive_model column_name p })

/-- The per-table part of `scan_all_tables` (lines 386-499): primary key,
unique columns, model name, relations, then the column loop. -/
def scanTable (db : Database) (table : Str) : Except PyErr QueryModel := do
  let primary_key_column ← get_table_primary_key_column_name db table
  let unique_columns ← get_unique_columns db table
  let model_name := normalize_table_name table
  let relations ← get_table_relations db table
  let rows ← db.get_table_description table
  let st ← rows.foldlM (scanRow db table primary_key_column unique_columns relations)
    ([], ⟨model_name, table, [], []⟩)
  pure st.2

/-- The kinds kept by the table filter at lines 378-384. -/
def tableTypes : List Str := ["t".toList, "p".toList, "v".toList]

/-- Fold of scanned tables into the projection dictionary keyed by model
name (line 501). -/
def scanTables (db : Database) (tables : List Str) : Except PyErr Graph :=
  tables.foldlM
    (fun g t => do
      let qm ← scanTable db t
      pure (updAssoc g qm.model_name qm))
    []

/-- `DatabaseScanner.scan_all_tables` (lines 377-501): list tables, keep
kinds {t, p, v}, dedupe names through the dict comprehension of line 384,
then scan in sorted raw-name order. -/
def scan_all_tables (db : Database) : Except PyErr Graph := do
  let table_info ← db.get_table_list
  let names :=
    dedupFirst ((table_info.filter (fun i => tableTypes.contains i.type)).map (·.name))
  scanTables db (sortStrs names)

/-! ## RelationLinker -/

/-- The relation at model key `k`, relation key `r` of a graph, through
dictionary lookups. -/
def relAt (g : Graph) (k r : Str) : Option QueryForeginModel :=
  (lookupA g k).bind (fun qm => lookupA qm.query_foregin_model r)

/-- The updated relation slot after a successful resolution against a
target model (lines 371-375): a fresh Django model class is built from
the target's current state and stored in the `to` option, together with a
serializer built from the same class. -/
def linkedFm (target : QueryModel) (fm : QueryForeginModel) : QueryForeginModel :=
  let django_model := target.get_django_model
  { fm with to_model := some django_model,
            serializer := some (target.get_drf_serializer django_model) }

/-- Resolution of one relation of model `k` against the current graph
(lines 368-375): when `projections.get(rel_to)` finds a model, the
relation's options are updated in place. -/
def linkRelationStep (k : Str) (g : Graph) (r : Str) : Graph :=
  match lookupA g k with
  | none => g
  | some qm =>
    match lookupA qm.query_foregin_model r with
    | none => g
    | some fm =>
      match lookupA g fm.rel_to with
      | none => g
      | some target =>
        updAssoc g k
          { qm with query_foregin_model := updAssoc qm.query_foregin_model r (linkedFm target fm) }

/-- Resolution of every relation of the model at key `k`, in dictionary
order, reading the graph state as it evolves (object aliasing in the
source: the dict values are mutated in place). -/
def linkModelStep (g : Graph) (k : Str) : Graph :=
  match lookupA g k with
  | none => g
  | some qm => (keysOf qm.query_foregin_model).foldl (linkRelationStep k) g

/-- `DatabaseScanner.link_foregin_keys` (lines 362-375): one pass over all
models in dictionary order. -/
def link_foregin_keys (g : Graph) : Graph :=
  (keysOf g).foldl linkModelStep g

/-! ## QueryViewSet.select -/

/-- The query loop of `select` (lines 550-569): per model in dictionary
order, read every row of the backing table and append the serialized
records.  Output rows are represented by their model key paired with the
opaque row identifier. -/
def selectData (db : Database) (g : Graph) : Except PyErr (List (Str × Nat)) :=
  g.foldlM
    (fun acc p => do
      let rows ← db.table_rows p.2.table_name
      pure (acc ++ rows.map (fun r => (p.1, r))))
    []

/-- Outcome of one `select` request: whether the cursor was released,
whether the connection was closed, and the response or the propagated
exception. -/
structure SelectOutcome where
  cursorReleased : Bool
  connectionClosed : Bool
  response : Except PyErr (List (Str × Nat))

/-- `QueryViewSet.select` from the cursor acquisition on (lines 545-629).
The `with db.cursor()` block releases the cursor on every path out of the
block, but `db.close()` stands AFTER the block, not in a `finally`
clause, so an exception raised by scanning, linking or a read propagates
without closing the connection. -/
def select (db : Database) : SelectOutcome :=
  match db.open_cursor with
  | .error e => ⟨false, false, .error e⟩
  | .ok _ =>
    match (do
        let g ← scan_all_tables db
        let linked := link_foregin_keys g
        selectData db linked : Except PyErr (List (Str × Nat))) with
    | .ok data => ⟨true, true, .ok data⟩
    | .error e => ⟨true, false, .error e⟩

/-! ## Observation functions used by the claim statements -/

/-- The linking-invariant part of a relation slot: its target model name
and its source and target columns. -/
def relSkeleton (fm : QueryForeginModel) : Str × Str × Str :=
  (fm.rel_to, fm.db_column, fm.to_field)

/-- The linking-invariant part of a projection model: everything except
the mutable `to`/`serializer` options of its relation slots. -/
def modelSkeleton (qm : QueryModel) :
    Str × Str × List (Str × QueryPrimitiveFieldModel) × List (Str × (Str × Str × Str)) :=
  (qm.model_name, qm.table_name, qm.query_primitive_model,
   qm.query_foregin_model.map (fun p => (p.1, relSkeleton p.2)))

/-- The resolution state of a relation slot: its target model name and
whether a target model and a serializer are attached. -/
def resolvedState (fm : QueryForeginModel) : Str × Bool × Bool :=
  (fm.rel_to, fm.to_model.isSome, fm.serializer.isSome)

/-- The effect of one linking pass on a resolution state: a relation
whose target name is among the given keys comes out fully attached, any
other relation is untouched. -/
def resolveTriple (ks : List Str) (s : Str × Bool × Bool) : Str × Bool × Bool :=
  if s.1 ∈ ks then (s.1, true, true) else s

/-! ## Concrete databases used by counterexamples and witnesses -/

def chars (x : String) : Str := x.toList

/-- A database with one table `emp` whose column `boss_id` references the
table itself. -/
def dbSelf : Database where
  get_table_list := .ok [⟨chars "emp", chars "t"⟩]
  get_table_description := fun t =>
    if t == chars "emp" then .ok [⟨chars "boss_id", 7, none, none, none, none⟩]
    else .ok []
  get_primary_key_columns := fun _ => .ok []
  get_primary_key_column := fun _ => .ok (some (chars "id"))
  get_relations := fun t =>
    if t == chars "emp" then .ok [(chars "boss_id", (chars "id", chars "emp"))]
    else .ok []
  get_constraints := fun _ => .ok []
  get_field_type_map := fun c => if c == 7 then some (chars "IntegerField") else none
  table_rows := fun _ => .ok [0]
  open_cursor := .ok ()

/-- A database with one table `orders` whose relation column
`customer_id` normalizes to `customer` while a sibling plain column is
named `customer` raw. -/
def dbColl : Database where
  get_table_list := .ok [⟨chars "orders", chars "t"⟩]
  get_table_description := fun t =>
    if t == chars "orders" then
      .ok [⟨chars "customer_id", 7, none, none, none, none⟩,
           ⟨chars "customer", 9, none, none, none, none⟩]
    else .ok []
  get_primary_key_columns := fun _ => .ok []
  get_primary_key_column := fun _ => .ok (some (chars "id"))
  get_relations := fun t =>
    if t == chars "orders" then .ok [(chars "customer_id", (chars "id", chars "x"))]
    else .ok []
  get_constraints := fun _ => .ok []
  get_field_type_map := fun c => if c == 9 then some (chars "TextField") else none
  table_rows := fun _ => .ok [0]
  open_cursor := .ok ()

/-- A database with one table `books` whose primary key is the
conventionally named integer identity column `id`. -/
def dbPk : Database where
  get_table_list := .ok [⟨chars "books", chars "t"⟩]
  get_table_description := fun t =>
    if t == chars "books" then
      .ok [⟨chars "id", 1, none, none, none, none⟩,
           ⟨chars "title", 9, none, none, none, none⟩]
    else .ok []
  get_primary_key_columns := fun t => if t == chars "books" then .ok [chars "id"] else .ok []
  get_primary_key_column := fun _ => .ok none
  get_relations := fun _ => .ok []
  get_constraints := fun _ => .ok []
  get_field_type_map := fun c =>
    if c == 1 then some (chars "AutoField")
    else if c == 9 then some (chars "TextField") else none
  table_rows := fun _ => .ok [0]
  open_cursor := .ok ()

/-- A database whose primary-key listing capability is missing while every
other introspection operation works. -/
def dbNoPk : Database where
  get_table_list := .ok [⟨chars "t1", chars "t"⟩]
  get_table_description := fun _ => .ok []
  get_primary_key_columns := fun _ => .error .notImplementedError
  get_primary_key_column := fun _ => .ok none
  get_relations := fun _ => .error .notImplementedError
  get_constraints := fun _ => .error .notImplementedError
  get_field_type_map := fun _ => none
  table_rows := fun _ => .ok []
  open_cursor := .ok ()

/-- A database whose single table fails on its column description read. -/
def dbReadFail : Database where
  get_table_list := .ok [⟨chars "t1", chars "t"⟩]
  get_table_description := fun _ => .error .operationalError
  get_primary_key_columns := fun _ => .ok []
  get_primary_key_column := fun _ => .ok none
  get_relations := fun _ => .ok []
  get_constraints := fun _ => .ok []
  get_field_type_map := fun _ => none
  table_rows := fun _ => .ok []
  open_cursor := .ok ()

/-- A database with tables `aa` and `AB`: raw sorted order puts `AB`
first, while the normalized names `Aa` and `Ab` sort the other way. -/
def dbOrder : Database where
  get_table_list := .ok [⟨chars "aa", chars "t"⟩, ⟨chars "AB", chars "t"⟩]
  get_table_description := fun _ => .ok [⟨chars "x", 9, none, none, none, none⟩]
  get_primary_key_columns := fun _ => .ok []
  get_primary_key_column := fun _ => .ok none
  get_relations := fun _ => .ok []
  get_constraints := fun _ => .ok []
  get_field_type_map := fun c => if c == 9 then some (chars "TextField") else none
  table_rows := fun t => if t == chars "AB" then .ok [0] else .ok [1]
  open_cursor := .ok ()

/-- A database with tables `aB` and `ab` whose normalized model names
coincide (`Ab`). -/
def dbDup : Database where
  get_table_list := .ok [⟨chars "aB", chars "t"⟩, ⟨chars "ab", chars "t"⟩]
  get_table_description := fun _ => .ok [⟨chars "x", 9, none, none, none, none⟩]
  get_primary_key_columns := fun _ => .ok []
  get_primary_key_column := fun _ => .ok none
  get_relations := fun _ => .ok []
  get_constraints := fun _ => .ok []
  get_field_type_map := fun c => if c == 9 then some (chars "TextField") else none
  table_rows := fun _ => .ok [0]
  open_cursor := .ok ()

/-- A database with one table `a` whose relation column `b_id` references
a table `b` that is not part of the catalog. -/
def dbMissing : Database where
  get_table_list := .ok [⟨chars "a", chars "t"⟩]
  get_table_description := fun t =>
    if t == chars "a" then .ok [⟨chars "b_id", 7, none, none, none, none⟩] else .ok []
  get_primary_key_columns := fun _ => .ok []
  get_primary_key_column := fun _ => .ok (some (chars "id"))
  get_relations := fun t =>
    if t == chars "a" then .ok [(chars "b_id", (chars "id", chars "b"))] else .ok []
  get_constraints := fun _ => .ok []
  get_field_type_map := fun c => if c == 7 then some (chars "IntegerField") else none
  table_rows := fun _ => .ok [0]
  open_cursor := .ok ()

/-- An unlinked relation slot pointing at the named model. -/
def fmTo (t : String) : QueryForeginModel := ⟨chars t, chars "x_id", chars "id", none, none⟩

/-- A projection model with the given relation slots and no primitive
fields. -/
def qmOf (n tb : String) (fs : List (Str × QueryForeginModel)) : QueryModel :=
  ⟨chars n, chars tb, fs, []⟩

/-- A three-model graph with the relation chain A to B, B to C. -/
def gABC : Graph :=
  [(chars "A", qmOf "A" "a" [(chars "b_rel", fmTo "B")]),
   (chars "B", qmOf "B" "b" [(chars "c_rel", fmTo "C")]),
   (chars "C", qmOf "C" "c" [])]

/-- A fallback projection model used to name lookup results in closed
witness statements. -/
def defaultQueryModel : QueryModel := ⟨[], [], [], []⟩

/-- A fallback relation slot used to name lookup results in closed
witness statements. -/
def defaultForeginModel : QueryForeginModel := ⟨[], [], [], none, none⟩

/-- The graph scanned from `dbMissing`. -/
def gMissing : Graph := (scan_all_tables dbMissing).toOption.getD []

/-- The linked model `A` of `gMissing`. -/
def qmMissing : QueryModel :=
  (lookupA (link_foregin_keys gMissing) (chars "A")).getD defaultQueryModel

/-- The relation slot `b` of `qmMissing`, whose target `B` is not in the
graph. -/
def fmMissing : QueryForeginModel :=
  (lookupA qmMissing.query_foregin_model (chars "b")).getD defaultForeginModel

/-- The graph scanned from `dbOrder`. -/
def gOrder : Graph := (scan_all_tables dbOrder).toOption.getD []

/-- The assembled rows of `dbOrder`. -/
def dOrder : List (Str × Nat) :=
  (selectData dbOrder (link_foregin_keys gOrder)).toOption.getD []

/-- The graph scanned from `dbDup`, whose two tables share one
normalized model name. -/
def gDup : Graph := (scan_all_tables dbDup).toOption.getD []

/-! # Reduction lemmas for the Except monad -/

@[simp]
theorem except_bind_ok {α β : Type} (a : α) (f : α → Except PyErr β) :
    (Except.ok a >>= f : Except PyErr β) = f a := rfl

@[simp]
theorem except_bind_error {α β : Type} (e : PyErr) (f : α → Except PyErr β) :
    (Except.error e >>= f : Except PyErr β) = Except.error e := rfl

@[simp]
theorem except_pure_bind {α β : Type} (a : α) (f : α → Except PyErr β) :
    (pure a >>= f : Except PyErr β) = f a := rfl

@[simp]
theorem except_map_ok {α β : Type} (a : α) (f : α → β) :
    (Except.map f (Except.ok a) : Except PyErr β) = Except.ok (f a) := rfl

@[simp]
theorem except_map_error {α β : Type} (e : PyErr) (f : α → β) :
    (Except.map f (Except.error e) : Except PyErr β) = Except.error e := rfl

/-! # Lemmas about decimal digits and the collision search -/

theorem digitVal_digitChar (n : Nat) (h : n < 10) : digitVal (digitChar n) = n := by
  interval_cases n <;> rfl

theorem parseDigits_append (l : Str) (c : Char) :
    parseDigits (l ++ [c]) = parseDigits l * 10 + digitVal c := by
  simp [parseDigits, List.foldl_append]

theorem parseDigits_natDigitsAux :
    ∀ (fuel n : Nat), n < fuel → parseDigits (natDigitsAux fuel n) = n := by
  intro fuel
  induction fuel with
  | zero => intro n h; omega
  | succ f ih =>
    intro n h
    by_cases h10 : n < 10
    · simp only [natDigitsAux, if_pos h10]
      have := digitVal_digitChar n h10
      simp [parseDigits, this]
    · have hdiv : n / 10 < f := by
        have h1 : n / 10 < n := Nat.div_lt_self (by omega) (by omega)
        omega
      simp only [natDigitsAux, if_neg h10]
      rw [parseDigits_append, ih _ hdiv,
        digitVal_digitChar _ (Nat.mod_lt _ (by omega))]
      have := Nat.div_add_mod n 10
      omega

theorem parseDigits_natDigits (n : Nat) : parseDigits (natDigits n) = n :=
  parseDigits_natDigitsAux (n + 1) n (by omega)

theorem natDigits_inj {m n : Nat} (h : natDigits m = natDigits n) : m = n := by
  have hm := parseDigits_natDigits m
  have hn := parseDigits_natDigits n
  rw [h] at hm
  omega

theorem conflictSuffix_inj (name : Str) {m n : Nat}
    (h : conflictSuffix name m = conflictSuffix name n) : m = n := by
  unfold conflictSuffix at h
  have h2 := List.append_cancel_left h
  exact natDigits_inj (List.tail_eq_of_cons_eq h2)

theorem conflictSuffix_exists_free (name : Str) (used : List Str) :
    ∃ j, j ≤ used.length ∧ conflictSuffix name j ∉ used := by
  by_contra hc
  push_neg at hc
  have hinj : Function.Injective
      (fun j : Fin (used.length + 1) => conflictSuffix name j.1) := by
    intro a b hab
    exact Fin.ext (conflictSuffix_inj name hab)
  have hsub : Finset.univ.image
      (fun j : Fin (used.length + 1) => conflictSuffix name j.1) ⊆ used.toFinset := by
    intro x hx
    rw [Finset.mem_image] at hx
    obtain ⟨j, _, rfl⟩ := hx
    exact List.mem_toFinset.mpr (hc j.1 (Nat.lt_succ_iff.mp j.isLt))
  have h1 := Finset.card_le_card hsub
  rw [Finset.card_image_of_injective _ hinj, Finset.card_univ, Fintype.card_fin] at h1
  have h2 := used.toFinset_card_le
  omega

theorem findFreeNum_spec (name : Str) (used : List Str) :
    ∀ (fuel num : Nat), (∃ j, j < fuel ∧ conflictSuffix name (num + j) ∉ used) →
      conflictSuffix name (findFreeNum name used fuel num) ∉ used := by
  intro fuel
  induction fuel with
  | zero =>
    intro num h
    obtain ⟨j, hj, _⟩ := h
    omega
  | succ f ih =>
    intro num h
    obtain ⟨j, hj, hfree⟩ := h
    by_cases hmem : conflictSuffix name num ∈ used
    · simp only [findFreeNum, if_pos hmem]
      apply ih
      have hj0 : j ≠ 0 := by
        rintro rfl
        exact hfree (by simpa using hmem)
      refine ⟨j - 1, by omega, ?_⟩
      have heq : num + 1 + (j - 1) = num + j := by omega
      rw [heq]
      exact hfree
    · simp only [findFreeNum, if_neg hmem]
      exact hmem

theorem findFreeNum_result_free (name : Str) (used : List Str) :
    conflictSuffix name (findFreeNum name used (used.length + 1) 0) ∉ used := by
  apply findFreeNum_spec
  obtain ⟨j, hj, hfree⟩ := conflictSuffix_exists_free name used
  exact ⟨j, by omega, by simpa using hfree⟩

/-! # Lemmas about prefixes, suffixes and underscore collapsing -/

theorem hasPrefixL_length : ∀ (l p : Str), hasPrefixL l p = true → p.length ≤ l.length := by
  intro l
  induction l with
  | nil =>
    intro p h
    cases p with
    | nil => simp
    | cons c cs => simp [hasPrefixL] at h
  | cons c cs ih =>
    intro p h
    cases p with
    | nil => simp
    | cons d ds =>
      simp only [hasPrefixL, Bool.and_eq_true] at h
      have := ih ds h.2
      simp [Nat.succ_le_succ this]

theorem hasPrefixL_eq_of_length :
    ∀ (l p : Str), hasPrefixL l p = true → l.length = p.length → l = p := by
  intro l
  induction l with
  | nil =>
    intro p h hlen
    cases p with
    | nil => rfl
    | cons c cs => simp at hlen
  | cons c cs ih =>
    intro p h hlen
    cases p with
    | nil => simp at hlen
    | cons d ds =>
      simp only [hasPrefixL, Bool.and_eq_true] at h
      have h1 : c = d := eq_of_beq h.1
      have h2 : cs = ds := ih ds h.2 (by simpa using hlen)
      rw [h1, h2]

theorem hasSuffixL_length (l s : Str) (h : hasSuffixL l s = true) :
    s.length ≤ l.length := by
  have := hasPrefixL_length l.reverse s.reverse h
  simpa using this

theorem hasSuffixL_eq_of_length (l s : Str) (h : hasSuffixL l s = true)
    (hlen : l.length = s.length) : l = s := by
  have := hasPrefixL_eq_of_length l.reverse s.reverse h (by simpa using hlen)
  have h2 := congrArg List.reverse this
  simpa using h2

theorem removeSuffixL_ne_nil (l s : Str) (h : hasSuffixL l s = true) (hne : l ≠ s) :
    removeSuffixL l s ≠ [] := by
  unfold removeSuffixL
  rw [if_pos h]
  have h1 := hasSuffixL_length l s h
  have h2 : s.length < l.length := by
    rcases Nat.lt_or_ge s.length l.length with hlt | hge
    · exact hlt
    · exact absurd (hasSuffixL_eq_of_length l s h (by omega)) hne
  intro hnil
  have := congrArg List.length hnil
  simp [List.length_take] at this
  omega

theorem hasPrefixL_single_false {l : Str} {c0 : Char} {t : Str}
    (h : hasPrefixL l ['_'] = false) (he : l = c0 :: t) : (c0 == '_') = false := by
  subst he
  simp only [hasPrefixL, Bool.and_eq_true] at h
  cases hc : c0 == '_'
  · rfl
  · rw [hc] at h
    simp [hasPrefixL] at h

theorem collapseSep_all (p : Char → Bool) :
    ∀ (b : Bool) (l : Str), l.all p = true → (collapseSep b l).all p = true := by
  intro b l
  induction l generalizing b with
  | nil => intro _; rfl
  | cons c rest ih =>
    intro h
    rw [List.all_cons, Bool.and_eq_true] at h
    by_cases hc : (c == '_') = true
    · cases b with
      | true => simpa [collapseSep, hc] using ih true h.2
      | false =>
        simp only [collapseSep, hc]
        simp [h.1, ih true h.2]
    · rw [Bool.not_eq_true] at hc
      simp only [collapseSep, hc]
      simp [h.1, ih false h.2]

theorem collapseSep_false_cons (c : Char) (rest : Str) :
    ∃ t, collapseSep false (c :: rest) = c :: t := by
  by_cases hc : (c == '_') = true
  · exact ⟨collapseSep true rest, by simp [collapseSep, hc]⟩
  · rw [Bool.not_eq_true] at hc
    exact ⟨collapseSep false rest, by simp [collapseSep, hc]⟩

/-! # Lemmas about Python keywords -/

theorem kw_all_alpha (l : Str) (h : isPyKeyword l = true) :
    l.all Char.isAlpha = true := by
  have hmem : l ∈ pythonKeywords := by
    simpa [isPyKeyword] using h
  have hall : pythonKeywords.all (fun k => k.all Char.isAlpha) = true := by decide
  rw [List.all_eq_true] at hall
  exact hall l hmem

theorem isPyKeyword_false_of_underscore_mem {l : Str} (h : '_' ∈ l) :
    isPyKeyword l = false := by
  by_contra hk
  rw [Bool.not_eq_false] at hk
  have hall := kw_all_alpha l hk
  rw [List.all_eq_true] at hall
  exact absurd (hall '_' h) (by decide)

/-! # Stage lemmas for normalize_col_name -/

theorem band_intro {a b : Bool} (ha : a = true) (hb : b = true) : (a && b) = true := by
  rw [ha, hb]
  rfl

theorem nn1_ne_nil (col_name : Str) (is_relation : Bool)
    (h1 : col_name ≠ []) (h2 : is_relation = true → pyLower col_name ≠ idSuffix) :
    nn1 col_name is_relation ≠ [] := by
  unfold nn1
  split
  case isTrue h =>
    rw [Bool.and_eq_true] at h
    exact removeSuffixL_ne_nil _ _ h.2 (h2 h.1)
  case isFalse h =>
    simpa [pyLower] using h1

theorem nn2_ne_nil (col_name : Str) (is_relation : Bool)
    (h : nn1 col_name is_relation ≠ []) : nn2 col_name is_relation ≠ [] := by
  simpa [nn2] using h

theorem nn2_all_word (col_name : Str) (is_relation : Bool) :
    (nn2 col_name is_relation).all isWordChar = true := by
  unfold nn2
  rw [List.all_eq_true]
  intro x hx
  rw [List.mem_map] at hx
  obtain ⟨y, _, rfl⟩ := hx
  by_cases hw : isWordChar y = true
  · simp [hw]
  · rw [Bool.not_eq_true] at hw
    simp [hw]
    decide

theorem nn3_ne_nil (col_name : Str) (is_relation : Bool)
    (h : nn2 col_name is_relation ≠ []) : nn3 col_name is_relation ≠ [] := by
  unfold nn3
  split
  · obtain ⟨c, r, hcr⟩ := List.exists_cons_of_ne_nil h
    rw [hcr]
    obtain ⟨t, ht⟩ := collapseSep_false_cons c r
    simp [ht]
  · exact h

theorem nn3_all_word (col_name : Str) (is_relation : Bool) :
    (nn3 col_name is_relation).all isWordChar = true := by
  unfold nn3
  split
  · exact collapseSep_all isWordChar false _ (nn2_all_word col_name is_relation)
  · exact nn2_all_word col_name is_relation

theorem nn4_ne_nil (col_name : Str) (is_relation : Bool)
    (h : nn3 col_name is_relation ≠ []) : nn4 col_name is_relation ≠ [] := by
  unfold nn4
  split
  · simp [fieldWord]
  · exact h

theorem nn4_all_word (col_name : Str) (is_relation : Bool) :
    (nn4 col_name is_relation).all isWordChar = true := by
  unfold nn4
  split
  · rw [List.all_append]
    exact band_intro (by decide) (nn3_all_word col_name is_relation)
  · exact nn3_all_word col_name is_relation

theorem nn4_head (col_name : Str) (is_relation : Bool)
    (h : nn3 col_name is_relation ≠ []) :
    ∃ c t, nn4 col_name is_relation = c :: t ∧ (c == '_') = false := by
  unfold nn4
  split
  case isTrue hp =>
    exact ⟨'f', "ield".toList ++ nn3 col_name is_relation, by simp [fieldWord], by decide⟩
  case isFalse hp =>
    obtain ⟨c, t, hct⟩ := List.exists_cons_of_ne_nil h
    rw [Bool.not_eq_true] at hp
    exact ⟨c, t, hct, hasPrefixL_single_false hp hct⟩

theorem nn5_cons (col_name : Str) (is_relation : Bool) {c : Char} {t : Str}
    (h : nn4 col_name is_relation = c :: t) :
    ∃ t2, nn5 col_name is_relation = c :: t2 := by
  unfold nn5
  split
  · rw [h]
    exact ⟨t ++ fieldWord, rfl⟩
  · exact ⟨t, h⟩

theorem nn5_all_word (col_name : Str) (is_relation : Bool) :
    (nn5 col_name is_relation).all isWordChar = true := by
  unfold nn5
  split
  · rw [List.all_append]
    exact band_intro (nn4_all_word col_name is_relation) (by decide)
  · exact nn4_all_word col_name is_relation

theorem nn6_cons (col_name : Str) (is_relation : Bool) {c : Char} {t : Str}
    (h : nn5 col_name is_relation = c :: t) :
    ∃ t2, nn6 col_name is_relation = c :: t2 := by
  unfold nn6
  split
  · rw [h]
    exact ⟨t ++ underscoreField, rfl⟩
  · exact ⟨t, h⟩

theorem nn6_all_word (col_name : Str) (is_relation : Bool) :
    (nn6 col_name is_relation).all isWordChar = true := by
  unfold nn6
  split
  · rw [List.all_append]
    exact band_intro (nn5_all_word col_name is_relation) (by decide)
  · exact nn5_all_word col_name is_relation

/-- The reserved-word fix leaves no reserved word: either the stage-5 name
was not one, or `"_field"` was appended and no keyword contains an
underscore. -/
theorem nn6_not_keyword (col_name : Str) (is_relation : Bool) :
    isPyKeyword (nn6 col_name is_relation) = false := by
  unfold nn6
  split
  · exact isPyKeyword_false_of_underscore_mem
      (List.mem_append_right _ (by decide))
  case isFalse h => exact Bool.not_eq_true _ |>.mp h

/-- Summary of the head of the stage-6 name under the non-crash
hypotheses: the name is a cons whose head is neither an underscore nor a
digit unreachable…; precisely, the head is not an underscore. -/
theorem nn6_head (col_name : Str) (is_relation : Bool)
    (h1 : col_name ≠ []) (h2 : is_relation = true → pyLower col_name ≠ idSuffix) :
    ∃ c t, nn6 col_name is_relation = c :: t ∧ (c == '_') = false := by
  have h3 := nn3_ne_nil col_name is_relation
    (nn2_ne_nil col_name is_relation (nn1_ne_nil col_name is_relation h1 h2))
  obtain ⟨c, t4, h4, hc⟩ := nn4_head col_name is_relation h3
  obtain ⟨t5, h5⟩ := nn5_cons col_name is_relation h4
  obtain ⟨t6, h6⟩ := nn6_cons col_name is_relation h5
  exact ⟨c, t6, h6, hc⟩

theorem digitChar_isDigit (n : Nat) : (digitChar n).isDigit = true := by
  unfold digitChar
  split <;> decide

theorem natDigitsAux_all_digit (fuel n : Nat) :
    (natDigitsAux fuel n).all Char.isDigit = true := by
  induction fuel generalizing n with
  | zero => rfl
  | succ f ih =>
    unfold natDigitsAux
    split
    · simp [digitChar_isDigit]
    · rw [List.all_append]
      exact band_intro (ih (n / 10)) (by simp [digitChar_isDigit])

theorem word_of_digit {c : Char} (h : c.isDigit = true) : isWordChar c = true := by
  simp [isWordChar, h]

/-- Properties of the stage-7 name: still a cons, its head an alpha
character that is not a digit, every character a word character, not a
reserved word. -/
theorem nn7_spec (col_name : Str) (is_relation : Bool) {c0 : Char} {t : Str}
    (h6 : nn6 col_name is_relation = c0 :: t) (hch : (c0 == '_') = false) :
    ∃ d r, nn7 col_name is_relation = d :: r ∧ d.isAlpha = true ∧
      d.isDigit = false ∧ (nn7 col_name is_relation).all isWordChar = true ∧
      isPyKeyword (nn7 col_name is_relation) = false := by
  have hword := nn6_all_word col_name is_relation
  rw [h6, List.all_cons, Bool.and_eq_true] at hword
  have hred : nn7 col_name is_relation =
      if c0.isDigit then numberWord ++ (c0 :: t) else c0 :: t := by
    unfold nn7
    rw [h6]
  rw [hred]
  by_cases hd : c0.isDigit = true
  · rw [if_pos hd]
    refine ⟨'n', "umber_".toList ++ (c0 :: t), by simp [numberWord], by decide,
      by decide, ?_, ?_⟩
    · rw [List.all_append]
      refine band_intro (by decide) ?_
      rw [List.all_cons, Bool.and_eq_true]
      exact ⟨hword.1, hword.2⟩
    · exact isPyKeyword_false_of_underscore_mem
        (List.mem_append_left _ (by decide))
  · rw [Bool.not_eq_true] at hd
    rw [if_neg (by simp [hd])]
    have halpha : c0.isAlpha = true := by
      have hw := hword.1
      simp only [isWordChar, Bool.or_eq_true] at hw
      rcases hw with (ha | hdig) | hu
      · exact ha
      · rw [hd] at hdig; exact absurd hdig (by decide)
      · rw [hch] at hu; exact absurd hu (by decide)
    refine ⟨c0, t, rfl, halpha, hd, ?_, ?_⟩
    · rw [List.all_cons, Bool.and_eq_true]
      exact ⟨hword.1, hword.2⟩
    · have := nn6_not_keyword col_name is_relation
      rwa [h6] at this

/-- The final name: a valid identifier, not a reserved word, not starting
with a digit, and absent from the used names. -/
theorem nn8_spec (col_name : Str) (used : List Str) (is_relation : Bool)
    {c0 : Char} {t : Str}
    (h6 : nn6 col_name is_relation = c0 :: t) (hch : (c0 == '_') = false) :
    isValidIdent (nn8 col_name used is_relation) = true ∧
    isPyKeyword (nn8 col_name used is_relation) = false ∧
    ((nn8 col_name used is_relation).head?.all (fun c => !c.isDigit)) = true ∧
    nn8 col_name used is_relation ∉ used := by
  obtain ⟨d, r, h7, halpha, hdig, hall, hkw⟩ := nn7_spec col_name is_relation h6 hch
  unfold nn8
  by_cases hconf : used.contains (nn7 col_name is_relation) = true
  · rw [if_pos hconf]
    have hfree := findFreeNum_result_free (nn7 col_name is_relation) used
    set num := findFreeNum (nn7 col_name is_relation) used (used.length + 1) 0 with hnum
    have hform : conflictSuffix (nn7 col_name is_relation) num =
        d :: (r ++ '_' :: natDigits num) := by
      rw [conflictSuffix, h7]
      rfl
    refine ⟨?_, ?_, ?_, hfree⟩
    · rw [hform]
      show ((d.isAlpha || d == '_') &&
        (r ++ '_' :: natDigits num).all isWordChar) = true
      refine band_intro (by simp [halpha]) ?_
      rw [h7, List.all_cons] at hall
      rw [Bool.and_eq_true] at hall
      rw [List.all_append]
      refine band_intro hall.2 ?_
      rw [List.all_cons]
      refine band_intro (by decide) ?_
      have := natDigitsAux_all_digit (num + 1) num
      rw [List.all_eq_true] at this ⊢
      intro x hx
      exact word_of_digit (this x hx)
    · rw [hform]
      exact isPyKeyword_false_of_underscore_mem
        (List.mem_cons_of_mem _ (List.mem_append_right _ (List.mem_cons_self _ _)))
    · rw [hform]
      simp [hdig]
  · rw [if_neg hconf]
    rw [Bool.not_eq_true] at hconf
    refine ⟨?_, hkw, ?_, by simpa using hconf⟩
    · rw [h7]
      show ((d.isAlpha || d == '_') && r.all isWordChar) = true
      refine band_intro (by simp [halpha]) ?_
      rw [h7, List.all_cons, Bool.and_eq_true] at hall
      exact hall.2
    · rw [h7]
      simp [hdig]

/-! # Claim C1 -/

/-- C1, counterexample: `normalize_col_name` is not a total function over
all raw column names: on the empty name, and on a relation column whose
entire text is `"_id"`, the source raises `IndexError` at line 87
(`new_name[0]` on an empty string), modelled by `none`. -/
theorem normalize_col_name_crashes :
    normalize_col_name [] [] false = none ∧
    normalize_col_name ("_id".toList) [] true = none := ⟨rfl, rfl⟩

/-- C1, amended: for every NON-EMPTY raw column name that does not, when
`is_relation` is true, lowercase to exactly `"_id"`, `normalize_col_name`
returns without error a non-empty name that is a valid Python identifier,
is not a reserved word, does not start with a digit, and does not occur
in the supplied used-name list. -/
theorem normalize_col_name_total_valid (col_name : Str) (used : List Str)
    (is_relation : Bool) (h1 : col_name ≠ [])
    (h2 : is_relation = true → pyLower col_name ≠ idSuffix) :
    ∃ res, normalize_col_name col_name used is_relation = some res ∧
      isValidIdent res.newName = true ∧
      isPyKeyword res.newName = false ∧
      (res.newName.head?.all (fun c => !c.isDigit)) = true ∧
      res.newName ∉ used := by
  obtain ⟨c0, t, h6, hch⟩ := nn6_head col_name is_relation h1 h2
  obtain ⟨hvalid, hkw, hhd, hmem⟩ := nn8_spec col_name used is_relation h6 hch
  unfold normalize_col_name
  rw [h6]
  exact ⟨_, rfl, hvalid, hkw, hhd, hmem⟩

/-- C1, witness: the amended theorem applied to the raw name `"Class"`
with `"class_field"` already used, exercising the reserved-word and
collision stages. -/
theorem normalize_col_name_total_valid_witness :
    ∃ res, normalize_col_name ("Class".toList) ["class_field".toList] false = some res ∧
      isValidIdent res.newName = true ∧
      isPyKeyword res.newName = false ∧
      (res.newName.head?.all (fun c => !c.isDigit)) = true ∧
      res.newName ∉ ["class_field".toList] :=
  normalize_col_name_total_valid ("Class".toList) ["class_field".toList] false
    (by decide) (by decide)

/-! # Lemmas about association lists -/

theorem keysOf_cons {α : Type} (p : Str × α) (rest : List (Str × α)) :
    keysOf (p :: rest) = p.1 :: keysOf rest := rfl

theorem lookupA_updAssoc_self {α : Type} (l : List (Str × α)) (k : Str) (v : α) :
    lookupA (updAssoc l k v) k = some v := by
  induction l with
  | nil => simp [updAssoc, lookupA]
  | cons p rest ih =>
    obtain ⟨k1, v1⟩ := p
    by_cases h : (k1 == k) = true
    · have hk : k1 = k := eq_of_beq h
      subst hk
      simp [updAssoc, lookupA]
    · rw [Bool.not_eq_true] at h
      simp [updAssoc, lookupA, h, ih]

theorem lookupA_updAssoc_other {α : Type} (l : List (Str × α)) (k k2 : Str) (v : α)
    (h : k2 ≠ k) : lookupA (updAssoc l k v) k2 = lookupA l k2 := by
  induction l with
  | nil => simp [updAssoc, lookupA, beq_false_of_ne (Ne.symm h)]
  | cons p rest ih =>
    obtain ⟨k1, v1⟩ := p
    by_cases hk : (k1 == k) = true
    · have he : k1 = k := eq_of_beq hk
      subst he
      simp [updAssoc, lookupA, beq_false_of_ne (Ne.symm h)]
    · rw [Bool.not_eq_true] at hk
      by_cases hk2 : (k1 == k2) = true
      · simp [updAssoc, lookupA, hk, hk2]
      · rw [Bool.not_eq_true] at hk2
        simp [updAssoc, lookupA, hk, hk2, ih]

theorem lookupA_none_iff_not_mem_keys {α : Type} (l : List (Str × α)) (k : Str) :
    lookupA l k = none ↔ k ∉ keysOf l := by
  induction l with
  | nil => simp [lookupA, keysOf]
  | cons p rest ih =>
    obtain ⟨k1, v1⟩ := p
    rw [keysOf_cons]
    by_cases hk : (k1 == k) = true
    · have he : k1 = k := eq_of_beq hk
      subst he
      rw [lookupA, if_pos (by simp)]
      constructor
      · intro h
        exact absurd h (by simp)
      · intro h
        exact absurd (List.mem_cons_self _ _) h
    · rw [Bool.not_eq_true] at hk
      have hne : k ≠ k1 := by
        intro he
        subst he
        simp at hk
      rw [lookupA, if_neg (by simp [hk]), ih, List.mem_cons]
      constructor
      · intro hn hc
        rcases hc with hc | hc
        · exact hne hc
        · exact hn hc
      · intro hn hc
        exact hn (Or.inr hc)

theorem lookupA_isSome_iff_mem_keys {α : Type} (l : List (Str × α)) (k : Str) :
    (lookupA l k).isSome = true ↔ k ∈ keysOf l := by
  rw [← Decidable.not_not (p := k ∈ keysOf l), ← lookupA_none_iff_not_mem_keys]
  cases lookupA l k <;> simp

theorem keysOf_updAssoc_mem {α : Type} (l : List (Str × α)) (k : Str) (v : α)
    (h : k ∈ keysOf l) : keysOf (updAssoc l k v) = keysOf l := by
  induction l with
  | nil => simp [keysOf] at h
  | cons p rest ih =>
    obtain ⟨k1, v1⟩ := p
    by_cases hk : (k1 == k) = true
    · have he : k1 = k := eq_of_beq hk
      subst he
      simp only [updAssoc]
      rw [if_pos (by simp), keysOf_cons, keysOf_cons]
    · rw [Bool.not_eq_true] at hk
      have hne : k1 ≠ k := by
        intro he
        subst he
        simp at hk
      simp only [updAssoc]
      rw [if_neg (by simp [hk]), keysOf_cons, keysOf_cons]
      have hmem : k ∈ keysOf rest := by
        rw [keysOf_cons, List.mem_cons] at h
        rcases h with h | h
        · exact absurd h.symm hne
        · exact h
      rw [ih hmem]

theorem keysOf_updAssoc_not_mem {α : Type} (l : List (Str × α)) (k : Str) (v : α)
    (h : k ∉ keysOf l) : keysOf (updAssoc l k v) = keysOf l ++ [k] := by
  induction l with
  | nil => simp [updAssoc, keysOf]
  | cons p rest ih =>
    obtain ⟨k1, v1⟩ := p
    by_cases hk : (k1 == k) = true
    · have he : k1 = k := eq_of_beq hk
      subst he
      rw [keysOf_cons] at h
      exact absurd (List.mem_cons_self _ _) h
    · rw [Bool.not_eq_true] at hk
      simp only [updAssoc]
      rw [if_neg (by simp [hk]), keysOf_cons, keysOf_cons]
      have hmem : k ∉ keysOf rest := by
        intro hc
        rw [keysOf_cons] at h
        exact h (List.mem_cons_of_mem _ hc)
      rw [ih hmem]
      rfl

theorem keysOf_updAssoc_nodup {α : Type} (l : List (Str × α)) (k : Str) (v : α)
    (h : (keysOf l).Nodup) : (keysOf (updAssoc l k v)).Nodup := by
  by_cases hm : k ∈ keysOf l
  · rwa [keysOf_updAssoc_mem l k v hm]
  · rw [keysOf_updAssoc_not_mem l k v hm]
    simp [List.nodup_append, h, hm]

theorem map_updAssoc_eq {α β : Type} (l : List (Str × α)) (k : Str) (v v2 : α)
    (f : Str × α → β) (hl : lookupA l k = some v2) (hf : f (k, v) = f (k, v2)) :
    (updAssoc l k v).map f = l.map f := by
  induction l with
  | nil => simp [lookupA] at hl
  | cons p rest ih =>
    obtain ⟨k1, v1⟩ := p
    by_cases hk : (k1 == k) = true
    · have he : k1 = k := eq_of_beq hk
      subst he
      rw [lookupA, if_pos (by simp)] at hl
      have hv : v1 = v2 := by
        cases hl
        rfl
      subst hv
      simp only [updAssoc]
      rw [if_pos (by simp), List.map_cons, List.map_cons, hf]
    · rw [Bool.not_eq_true] at hk
      rw [lookupA, if_neg (by simp [hk])] at hl
      simp only [updAssoc]
      rw [if_neg (by simp [hk]), List.map_cons, List.map_cons, ih hl]

theorem lookupA_of_mem_of_nodup {α : Type} (l : List (Str × α)) (k : Str) (v : α)
    (hnd : (keysOf l).Nodup) (hm : (k, v) ∈ l) : lookupA l k = some v := by
  induction l with
  | nil => simp at hm
  | cons p rest ih =>
    obtain ⟨k1, v1⟩ := p
    rw [List.mem_cons] at hm
    rcases hm with hm | hm
    · cases hm
      simp [lookupA]
    · have hk : k1 ≠ k := by
        intro he
        subst he
        rw [keysOf_cons, List.nodup_cons] at hnd
        exact hnd.1 (List.mem_map_of_mem (fun x => x.1) hm)
      rw [lookupA, if_neg (by simp [hk])]
      refine ih ?_ hm
      rw [keysOf_cons, List.nodup_cons] at hnd
      exact hnd.2

/-! # Lemmas about the relation linker -/

theorem resolvedState_linkedFm (t : QueryModel) (fm : QueryForeginModel) :
    resolvedState (linkedFm t fm) = (fm.rel_to, true, true) := rfl

theorem resolveTriple_idem (ks : List Str) (x : Option (Str × Bool × Bool)) :
    (x.map (resolveTriple ks)).map (resolveTriple ks) = x.map (resolveTriple ks) := by
  cases x with
  | none => rfl
  | some s =>
    show some (resolveTriple ks (resolveTriple ks s)) = some (resolveTriple ks s)
    unfold resolveTriple
    by_cases h : s.1 ∈ ks
    · simp [h]
    · simp [h]

/-- Case analysis of one relation-resolution step: either nothing happens
(model, relation or target not found), or the relation slot is replaced
by its linked version. -/
theorem linkRelationStep_char (k r : Str) (g : Graph) :
    (lookupA g k = none ∧ linkRelationStep k g r = g) ∨
    (∃ qm, lookupA g k = some qm ∧ lookupA qm.query_foregin_model r = none ∧
      linkRelationStep k g r = g) ∨
    (∃ qm fm, lookupA g k = some qm ∧ lookupA qm.query_foregin_model r = some fm ∧
      lookupA g fm.rel_to = none ∧ linkRelationStep k g r = g) ∨
    (∃ qm fm target, lookupA g k = some qm ∧
      lookupA qm.query_foregin_model r = some fm ∧
      lookupA g fm.rel_to = some target ∧
      linkRelationStep k g r = updAssoc g k
        { qm with query_foregin_model :=
            updAssoc qm.query_foregin_model r (linkedFm target fm) }) := by
  unfold linkRelationStep
  split
  next heq1 => exact Or.inl ⟨heq1, rfl⟩
  next qm heq1 =>
    split
    next heq2 => exact Or.inr (Or.inl ⟨qm, heq1, heq2, rfl⟩)
    next fm heq2 =>
      split
      next heq3 => exact Or.inr (Or.inr (Or.inl ⟨qm, fm, heq1, heq2, heq3, rfl⟩))
      next target heq3 =>
        exact Or.inr (Or.inr (Or.inr ⟨qm, fm, target, heq1, heq2, heq3, rfl⟩))

theorem linkRelationStep_lookup_other (k r k2 : Str) (g : Graph) (h : k2 ≠ k) :
    lookupA (linkRelationStep k g r) k2 = lookupA g k2 := by
  rcases linkRelationStep_char k r g with ⟨_, he⟩ | ⟨qm, _, _, he⟩ |
    ⟨qm, fm, _, _, _, he⟩ | ⟨qm, fm, target, h1, h2, h3, he⟩
  · rw [he]
  · rw [he]
  · rw [he]
  · rw [he]
    exact lookupA_updAssoc_other g k k2 _ h

theorem linkRelationStep_keys (k r : Str) (g : Graph) :
    keysOf (linkRelationStep k g r) = keysOf g := by
  rcases linkRelationStep_char k r g with ⟨_, he⟩ | ⟨qm, _, _, he⟩ |
    ⟨qm, fm, _, _, _, he⟩ | ⟨qm, fm, target, h1, h2, h3, he⟩
  · rw [he]
  · rw [he]
  · rw [he]
  · rw [he]
    apply keysOf_updAssoc_mem
    rw [← lookupA_isSome_iff_mem_keys, h1]
    rfl

theorem linkRelationStep_skeleton (k r k2 : Str) (g : Graph) :
    (lookupA (linkRelationStep k g r) k2).map modelSkeleton =
    (lookupA g k2).map modelSkeleton := by
  rcases linkRelationStep_char k r g with ⟨_, he⟩ | ⟨qm, _, _, he⟩ |
    ⟨qm, fm, _, _, _, he⟩ | ⟨qm, fm, target, h1, h2, h3, he⟩
  · rw [he]
  · rw [he]
  · rw [he]
  · rw [he]
    by_cases hk : k2 = k
    · subst hk
      rw [lookupA_updAssoc_self, h1]
      have hmap := map_updAssoc_eq qm.query_foregin_model r (linkedFm target fm) fm
        (fun p => (p.1, relSkeleton p.2)) h2 rfl
      rw [Option.map_some', Option.map_some']
      unfold modelSkeleton
      rw [hmap]
    · rw [lookupA_updAssoc_other g k k2 _ hk]

theorem linkRelationStep_relAt_other (k r r2 : Str) (g : Graph) (h : r2 ≠ r) :
    relAt (linkRelationStep k g r) k r2 = relAt g k r2 := by
  rcases linkRelationStep_char k r g with ⟨_, he⟩ | ⟨qm, _, _, he⟩ |
    ⟨qm, fm, _, _, _, he⟩ | ⟨qm, fm, target, h1, h2, h3, he⟩
  · rw [he]
  · rw [he]
  · rw [he]
  · unfold relAt
    rw [he, lookupA_updAssoc_self, h1]
    simp only [Option.some_bind]
    exact lookupA_updAssoc_other qm.query_foregin_model r r2 _ h

theorem linkRelationStep_relAt_self (k r : Str) (g : Graph) :
    (relAt (linkRelationStep k g r) k r).map resolvedState =
    ((relAt g k r).map resolvedState).map (resolveTriple (keysOf g)) := by
  rcases linkRelationStep_char k r g with ⟨h1, he⟩ | ⟨qm, h1, h2, he⟩ |
    ⟨qm, fm, h1, h2, h3, he⟩ | ⟨qm, fm, target, h1, h2, h3, he⟩
  · unfold relAt
    rw [he, h1]
    rfl
  · unfold relAt
    rw [he, h1]
    simp [h2]
  · have hnm : fm.rel_to ∉ keysOf g := (lookupA_none_iff_not_mem_keys g fm.rel_to).mp h3
    unfold relAt
    rw [he, h1]
    simp [h2, resolveTriple, resolvedState, hnm]
  · have hm : fm.rel_to ∈ keysOf g := by
      rw [← lookupA_isSome_iff_mem_keys, h3]
      rfl
    unfold relAt
    rw [he, lookupA_updAssoc_self, h1]
    simp [h2, lookupA_updAssoc_self, resolveTriple, resolvedState, hm, linkedFm]

theorem linkFold_lookup_other (k k2 : Str) (h : k2 ≠ k) (rs : List Str) (g : Graph) :
    lookupA (rs.foldl (linkRelationStep k) g) k2 = lookupA g k2 := by
  induction rs generalizing g with
  | nil => rfl
  | cons r1 rs ih => rw [List.foldl_cons, ih, linkRelationStep_lookup_other k r1 k2 g h]

theorem linkFold_keys (k : Str) (rs : List Str) (g : Graph) :
    keysOf (rs.foldl (linkRelationStep k) g) = keysOf g := by
  induction rs generalizing g with
  | nil => rfl
  | cons r1 rs ih => rw [List.foldl_cons, ih, linkRelationStep_keys]

theorem linkFold_skeleton (k k2 : Str) (rs : List Str) (g : Graph) :
    (lookupA (rs.foldl (linkRelationStep k) g) k2).map modelSkeleton =
    (lookupA g k2).map modelSkeleton := by
  induction rs generalizing g with
  | nil => rfl
  | cons r1 rs ih => rw [List.foldl_cons, ih, linkRelationStep_skeleton]

theorem linkFold_relAt (k : Str) (rs : List Str) (g : Graph) (r : Str) :
    (relAt (rs.foldl (linkRelationStep k) g) k r).map resolvedState =
    if r ∈ rs then ((relAt g k r).map resolvedState).map (resolveTriple (keysOf g))
    else (relAt g k r).map resolvedState := by
  induction rs generalizing g with
  | nil => simp
  | cons r1 rs ih =>
    rw [List.foldl_cons, ih (linkRelationStep k g r1), linkRelationStep_keys]
    by_cases hr : r = r1
    · subst hr
      rw [linkRelationStep_relAt_self]
      rw [if_pos (List.mem_cons_self r rs)]
      by_cases hmem : r ∈ rs
      · rw [if_pos hmem, resolveTriple_idem]
      · rw [if_neg hmem]
    · rw [linkRelationStep_relAt_other k r1 r g (fun he => hr he)]
      have hiff : r ∈ r1 :: rs ↔ r ∈ rs := by
        rw [List.mem_cons]
        constructor
        · intro hc
          rcases hc with hc | hc
          · exact absurd hc hr
          · exact hc
        · exact Or.inr
      by_cases hmem : r ∈ rs
      · rw [if_pos hmem, if_pos (hiff.mpr hmem)]
      · rw [if_neg hmem, if_neg (fun hc => hmem (hiff.mp hc))]

theorem linkModelStep_lookup_other (g : Graph) (k k2 : Str) (h : k2 ≠ k) :
    lookupA (linkModelStep g k) k2 = lookupA g k2 := by
  unfold linkModelStep
  cases h1 : lookupA g k with
  | none => rfl
  | some qm => exact linkFold_lookup_other k k2 h _ g

theorem linkModelStep_keys (g : Graph) (k : Str) :
    keysOf (linkModelStep g k) = keysOf g := by
  unfold linkModelStep
  cases h1 : lookupA g k with
  | none => rfl
  | some qm => exact linkFold_keys k _ g

theorem linkModelStep_skeleton (g : Graph) (k k2 : Str) :
    (lookupA (linkModelStep g k) k2).map modelSkeleton =
    (lookupA g k2).map modelSkeleton := by
  unfold linkModelStep
  cases h1 : lookupA g k with
  | none => rfl
  | some qm => exact linkFold_skeleton k k2 _ g

theorem linkModelStep_relAt_self (g : Graph) (k r : Str) :
    (relAt (linkModelStep g k) k r).map resolvedState =
    ((relAt g k r).map resolvedState).map (resolveTriple (keysOf g)) := by
  unfold linkModelStep
  cases h1 : lookupA g k with
  | none =>
    unfold relAt
    rw [h1]
    rfl
  | some qm =>
    rw [linkFold_relAt]
    cases h2 : lookupA qm.query_foregin_model r with
    | none =>
      have hrel : relAt g k r = none := by
        unfold relAt
        rw [h1]
        simpa using h2
      rw [hrel]
      simp
    | some fm =>
      have hmem : r ∈ keysOf qm.query_foregin_model := by
        rw [← lookupA_isSome_iff_mem_keys, h2]
        rfl
      rw [if_pos hmem]

theorem linkModelStep_relAt_other (g : Graph) (k k2 r : Str) (h : k2 ≠ k) :
    relAt (linkModelStep g k) k2 r = relAt g k2 r := by
  unfold relAt
  rw [linkModelStep_lookup_other g k k2 h]

theorem linkOuterFold_keys (ks : List Str) (g : Graph) :
    keysOf (ks.foldl linkModelStep g) = keysOf g := by
  induction ks generalizing g with
  | nil => rfl
  | cons k1 ks ih => rw [List.foldl_cons, ih, linkModelStep_keys]

theorem linkOuterFold_skeleton (ks : List Str) (g : Graph) (k2 : Str) :
    (lookupA (ks.foldl linkModelStep g) k2).map modelSkeleton =
    (lookupA g k2).map modelSkeleton := by
  induction ks generalizing g with
  | nil => rfl
  | cons k1 ks ih => rw [List.foldl_cons, ih, linkModelStep_skeleton]

theorem linkOuterFold_relAt (ks : List Str) (g : Graph) (k r : Str) :
    (relAt (ks.foldl linkModelStep g) k r).map resolvedState =
    if k ∈ ks then ((relAt g k r).map resolvedState).map (resolveTriple (keysOf g))
    else (relAt g k r).map resolvedState := by
  induction ks generalizing g with
  | nil => simp
  | cons k1 ks ih =>
    rw [List.foldl_cons, ih (linkModelStep g k1), linkModelStep_keys]
    by_cases hk : k = k1
    · subst hk
      rw [linkModelStep_relAt_self]
      rw [if_pos (List.mem_cons_self k ks)]
      by_cases hmem : k ∈ ks
      · rw [if_pos hmem, resolveTriple_idem]
      · rw [if_neg hmem]
    · rw [linkModelStep_relAt_other g k1 k r hk]
      have hiff : k ∈ k1 :: ks ↔ k ∈ ks := by
        rw [List.mem_cons]
        constructor
        · intro hc
          rcases hc with hc | hc
          · exact absurd hc hk
          · exact hc
        · exact Or.inr
      by_cases hmem : k ∈ ks
      · rw [if_pos hmem, if_pos (hiff.mpr hmem)]
      · rw [if_neg hmem, if_neg (fun hc => hmem (hiff.mp hc))]

theorem link_keys (g : Graph) : keysOf (link_foregin_keys g) = keysOf g := by
  unfold link_foregin_keys
  exact linkOuterFold_keys (keysOf g) g

theorem link_skeleton (g : Graph) (k : Str) :
    (lookupA (link_foregin_keys g) k).map modelSkeleton =
    (lookupA g k).map modelSkeleton := by
  unfold link_foregin_keys
  exact linkOuterFold_skeleton (keysOf g) g k

/-- Characterization of one linking pass at the resolution level: every
relation whose target name is a model key of the graph comes out with a
target model and serializer attached; every other relation is unchanged;
target names themselves never change. -/
theorem link_relAt_char (g : Graph) (k r : Str) :
    (relAt (link_foregin_keys g) k r).map resolvedState =
    ((relAt g k r).map resolvedState).map (resolveTriple (keysOf g)) := by
  unfold link_foregin_keys
  rw [linkOuterFold_relAt]
  by_cases hk : k ∈ keysOf g
  · rw [if_pos hk]
  · rw [if_neg hk]
    have h1 : lookupA g k = none := (lookupA_none_iff_not_mem_keys g k).mpr hk
    unfold relAt
    rw [h1]
    rfl

/-- C5, amended: re-running `link_foregin_keys` on an already-linked
graph leaves every relation's target model name and its resolution state
(whether a target model and serializer are attached) unchanged, leaves
every model's skeleton (name, table, primitive fields, relation keys)
unchanged, and leaves the key sequence unchanged; only the attached class
snapshots are rebuilt and can differ structurally. -/
theorem link_foregin_keys_resolution_idempotent (g : Graph) (k r : Str) :
    (relAt (link_foregin_keys (link_foregin_keys g)) k r).map resolvedState =
    (relAt (link_foregin_keys g) k r).map resolvedState ∧
    (lookupA (link_foregin_keys (link_foregin_keys g)) k).map modelSkeleton =
    (lookupA (link_foregin_keys g) k).map modelSkeleton ∧
    keysOf (link_foregin_keys (link_foregin_keys g)) = keysOf (link_foregin_keys g) := by
  refine ⟨?_, link_skeleton (link_foregin_keys g) k, link_keys (link_foregin_keys g)⟩
  rw [link_relAt_char (link_foregin_keys g) k r, link_keys g, link_relAt_char g k r]
  exact resolveTriple_idem (keysOf g) ((relAt g k r).map resolvedState)

/-! # Lemmas about the scanner -/

theorem foldlM_except_inv {σ α : Type} (f : σ → α → Except PyErr σ) (P : σ → Prop)
    (hstep : ∀ s a s2, f s a = .ok s2 → P s → P s2) :
    ∀ (l : List α) (s s2 : σ), List.foldlM f s l = .ok s2 → P s → P s2 := by
  intro l
  induction l with
  | nil =>
    intro s s2 h hp
    rw [List.foldlM_nil] at h
    cases h
    exact hp
  | cons a l ih =>
    intro s s2 h hp
    rw [List.foldlM_cons] at h
    cases hfa : f s a with
    | error e =>
      rw [hfa] at h
      simp at h
    | ok s1 =>
      rw [hfa] at h
      rw [except_bind_ok] at h
      exact ih s1 s2 h (hstep s a s1 hfa hp)

theorem updAssoc_forall {α : Type} (l : List (Str × α)) (k : Str) (v : α)
    (P : Str × α → Prop) (h : ∀ p ∈ l, P p) (hv : P (k, v)) :
    ∀ p ∈ updAssoc l k v, P p := by
  induction l with
  | nil =>
    intro p hp
    simp [updAssoc] at hp
    subst hp
    exact hv
  | cons q rest ih =>
    obtain ⟨k1, v1⟩ := q
    intro p hp
    by_cases hk : (k1 == k) = true
    · simp only [updAssoc, hk, if_pos] at hp
      rw [List.mem_cons] at hp
      rcases hp with hp | hp
      · subst hp
        exact hv
      · exact h p (List.mem_cons_of_mem _ hp)
    · rw [Bool.not_eq_true] at hk
      simp only [updAssoc] at hp
      rw [if_neg (by simp [hk])] at hp
      rw [List.mem_cons] at hp
      rcases hp with hp | hp
      · subst hp
        exact h _ (List.mem_cons_self _ _)
      · exact ih (fun q hq => h q (List.mem_cons_of_mem _ hq)) p hp

/-- Characterization of one column-loop iteration on a non-relation
column: the normalized name is appended to the used names, and the
primitive field is registered under the RAW column name, carrying the
primary-key flag exactly when the column is the table's primary-key
column. -/
theorem scanRow_primitive_char (db : Database) (table : Str) (pk : Option Str)
    (uniq : List Str) (rels : List (Str × (Str × Str)))
    (st : List Str × QueryModel) (row : FieldInfo) (st2 : List Str × QueryModel)
    (hrel : lookupA rels row.name = none)
    (hok : scanRow db table pk uniq rels st row = .ok st2) :
    ∃ res p, normalize_col_name row.name st.1 false = some res ∧
      p.options.primary_key = (some row.name == pk) ∧
      st2 = (st.1 ++ [res.newName],
        { st.2 with query_primitive_model :=
            updAssoc st.2.query_primitive_model row.name p }) := by
  unfold scanRow at hok
  dsimp only [] at hok
  rw [hrel] at hok
  simp only [Option.isSome_none] at hok
  cases hno : normalize_col_name row.name st.1 false with
  | none =>
    rw [hno] at hok
    simp at hok
  | some res =>
    rw [hno] at hok
    simp only [] at hok
    cases hmk : mkQueryPrimitiveFieldModel (get_field_type db row).1
        (mergeTypeParams
          (if some row.name == pk then
            { { emptyParams with db_column := res.dbColumn } with primary_key := true }
          else if uniq.contains row.name then
            { { emptyParams with db_column := res.dbColumn } with unique := true }
          else { emptyParams with db_column := res.dbColumn })
          (get_field_type db row).2.1) with
    | error e =>
      rw [hmk] at hok
      simp at hok
    | ok p =>
      rw [hmk] at hok
      rw [except_bind_ok] at hok
      refine ⟨res, p, rfl, ?_, ?_⟩
      · have hopts : p.options = mergeTypeParams
            (if some row.name == pk then
              { { emptyParams with db_column := res.dbColumn } with primary_key := true }
            else if uniq.contains row.name then
              { { emptyParams with db_column := res.dbColumn } with unique := true }
            else { emptyParams with db_column := res.dbColumn })
            (get_field_type db row).2.1 := by
          unfold mkQueryPrimitiveFieldModel at hmk
          split at hmk
          · cases hmk
            rfl
          · simp at hmk
        rw [hopts]
        by_cases hc : (some row.name == pk) = true
        · simp [mergeTypeParams, hc]
        · rw [Bool.not_eq_true] at hc
          by_cases hu : row.name ∈ uniq
          · simp [mergeTypeParams, hc, hu, emptyParams]
          · simp [mergeTypeParams, hc, hu, emptyParams]
      · cases hok
        rfl

/-- Characterization of one column-loop iteration on a relation column:
the relation slot is registered in the foreign dictionary under the
normalized name, with its `to` option and serializer unset.  The scan
only succeeds for many-to-one relations: a unique or primary-key relation
column selects the `OneToOneField` class, which is absent from
`FIELD_MAPPING_CLASS` and raises `ValueError`. -/
theorem scanRow_relation_char (db : Database) (table : Str) (pk : Option Str)
    (uniq : List Str) (rels : List (Str × (Str × Str)))
    (st : List Str × QueryModel) (row : FieldInfo) (st2 : List Str × QueryModel)
    (refcol reftable : Str)
    (hrel : lookupA rels row.name = some (refcol, reftable))
    (hok : scanRow db table pk uniq rels st row = .ok st2) :
    ∃ res, normalize_col_name row.name st.1 true = some res ∧
      st2 = (st.1 ++ [res.newName],
        { st.2 with query_foregin_model :=
            (updAssoc st.2.query_foregin_model res.newName
              { rel_to := if reftable == table then "self".toList
                  else normalize_table_name reftable,
                db_column := row.name, to_field := refcol,
                to_model := none, serializer := none }) }) := by
  unfold scanRow at hok
  dsimp only [] at hok
  rw [hrel] at hok
  simp only [Option.isSome_some] at hok
  cases hno : normalize_col_name row.name st.1 true with
  | none =>
    rw [hno] at hok
    simp at hok
  | some res =>
    rw [hno] at hok
    simp only [] at hok
    refine ⟨res, rfl, ?_⟩
    set ep1 := (if some row.name == pk then
        { { emptyParams with db_column := res.dbColumn } with primary_key := true }
      else if uniq.contains row.name then
        { { emptyParams with db_column := res.dbColumn } with unique := true }
      else { emptyParams with db_column := res.dbColumn }) with hep1
    by_cases hcond : (ep1.unique || ({ ep1 with unique := false }).primary_key) = true
    · rw [if_pos hcond] at hok
      simp only [except_pure_bind] at hok
      unfold mkQueryForeginModel at hok
      rw [if_neg (by decide)] at hok
      simp at hok
    · rw [Bool.not_eq_true] at hcond
      rw [if_neg (by simp [hcond])] at hok
      cases hpkc : db.get_primary_key_column reftable with
      | error e =>
        rw [hpkc] at hok
        simp at hok
      | ok refPk =>
        rw [hpkc] at hok
        simp only [except_bind_ok, except_pure_bind] at hok
        unfold mkQueryForeginModel at hok
        rw [if_pos (by decide)] at hok
        rw [except_bind_ok] at hok
        cases hok
        rfl

/-- Shape and invariants of a scanned table: the model is keyed by the
normalized table name, backs the raw table, and every relation slot it
registers is unresolved (no target model, no serializer) with pairwise
distinct relation keys. -/
theorem scanTable_shape (db : Database) (table : Str) (qm : QueryModel)
    (hok : scanTable db table = .ok qm) :
    qm.model_name = normalize_table_name table ∧ qm.table_name = table ∧
    (∀ p ∈ qm.query_foregin_model, p.2.to_model = none ∧ p.2.serializer = none) ∧
    (keysOf qm.query_foregin_model).Nodup := by
  unfold scanTable at hok
  cases h1 : get_table_primary_key_column_name db table with
  | error e =>
    rw [h1] at hok
    simp at hok
  | ok pk =>
    rw [h1, except_bind_ok] at hok
    cases h2 : get_unique_columns db table with
    | error e =>
      rw [h2] at hok
      simp at hok
    | ok uniq =>
      rw [h2, except_bind_ok] at hok
      cases h3 : get_table_relations db table with
      | error e =>
        rw [h3] at hok
        simp at hok
      | ok rels =>
        rw [h3, except_bind_ok] at hok
        cases h4 : db.get_table_description table with
        | error e =>
          rw [h4] at hok
          simp at hok
        | ok rows =>
          rw [h4, except_bind_ok] at hok
          cases h5 : List.foldlM (scanRow db table pk uniq rels)
              ([], ⟨normalize_table_name table, table, [], []⟩) rows with
          | error e =>
            rw [h5] at hok
            simp at hok
          | ok stf =>
            rw [h5, except_bind_ok] at hok
            cases hok
            have hinv := foldlM_except_inv (scanRow db table pk uniq rels)
              (fun st => st.2.model_name = normalize_table_name table ∧
                st.2.table_name = table ∧
                (∀ p ∈ st.2.query_foregin_model,
                  p.2.to_model = none ∧ p.2.serializer = none) ∧
                (keysOf st.2.query_foregin_model).Nodup)
              ?hstep rows _ stf h5 ⟨rfl, rfl, by intro p hp; simp at hp, by simp [keysOf]⟩
            · exact hinv
            case hstep =>
              intro s row s2 hrow hs
              cases hrel : lookupA rels row.name with
              | none =>
                obtain ⟨res, p, _, _, hst⟩ :=
                  scanRow_primitive_char db table pk uniq rels s row s2 hrel hrow
                rw [hst]
                exact ⟨hs.1, hs.2.1, hs.2.2.1, hs.2.2.2⟩
              | some rc =>
                obtain ⟨refcol, reftable⟩ := rc
                obtain ⟨res, _, hst⟩ :=
                  scanRow_relation_char db table pk uniq rels s row s2 refcol reftable
                    hrel hrow
                rw [hst]
                refine ⟨hs.1, hs.2.1, ?_, ?_⟩
                · exact updAssoc_forall _ _ _ _ hs.2.2.1 ⟨rfl, rfl⟩
                · exact keysOf_updAssoc_nodup _ _ _ hs.2.2.2

/-- Later column-loop iterations preserve a primitive registration as
long as the remaining columns carry different raw names. -/
theorem scanFold_preserves_primitive_lookup (db : Database) (table : Str)
    (pk : Option Str) (uniq : List Str) (rels : List (Str × (Str × Str))) :
    ∀ (l : List FieldInfo) (st st2 : List Str × QueryModel) (col : Str),
      List.foldlM (scanRow db table pk uniq rels) st l = .ok st2 →
      (∀ r ∈ l, r.name ≠ col) →
      lookupA st2.2.query_primitive_model col = lookupA st.2.query_primitive_model col := by
  intro l
  induction l with
  | nil =>
    intro st st2 col h _
    rw [List.foldlM_nil] at h
    cases h
    rfl
  | cons row l ih =>
    intro st st2 col h hne
    rw [List.foldlM_cons] at h
    cases hrow : scanRow db table pk uniq rels st row with
    | error e =>
      rw [hrow] at h
      simp at h
    | ok st1 =>
      rw [hrow, except_bind_ok] at h
      have hstep : lookupA st1.2.query_primitive_model col =
          lookupA st.2.query_primitive_model col := by
        cases hrel : lookupA rels row.name with
        | none =>
          obtain ⟨res, p, _, _, hst⟩ :=
            scanRow_primitive_char db table pk uniq rels st row st1 hrel hrow
          rw [hst]
          exact lookupA_updAssoc_other _ _ _ _
            (fun he => hne row (List.mem_cons_self _ _) he.symm)
        | some rc =>
          obtain ⟨refcol, reftable⟩ := rc
          obtain ⟨res, _, hst⟩ :=
            scanRow_relation_char db table pk uniq rels st row st1 refcol reftable
              hrel hrow
          rw [hst]
      rw [ih st1 st2 col h (fun r hr => hne r (List.mem_cons_of_mem _ hr)), hstep]

/-- C6, amended: every non-relation column that is the table's
primary-key column — the conventionally named integer identity column
included — is registered as an explicit primitive field under its raw
name with the primary-key flag set. -/
theorem scan_registers_pk_column_explicitly (db : Database) (table : Str)
    (qm : QueryModel) (pkcols : List Str) (rels : List (Str × (Str × Str)))
    (uniq : List Str) (rows : List FieldInfo) (row : FieldInfo)
    (hpk : db.get_primary_key_columns table = .ok pkcols)
    (huniq : get_unique_columns db table = .ok uniq)
    (hrels : get_table_relations db table = .ok rels)
    (hrows : db.get_table_description table = .ok rows)
    (hscan : scanTable db table = .ok qm)
    (hmem : row ∈ rows)
    (hpkname : pkcols.head? = some row.name)
    (hnotrel : lookupA rels row.name = none)
    (hnodup : (rows.map (·.name)).Nodup) :
    ∃ p, lookupA qm.query_primitive_model row.name = some p ∧
      p.options.primary_key = true := by
  unfold scanTable at hscan
  have h1 : get_table_primary_key_column_name db table = .ok (some row.name) := by
    unfold get_table_primary_key_column_name
    rw [hpk, except_map_ok, hpkname]
  rw [h1, except_bind_ok, huniq, except_bind_ok, hrels, except_bind_ok,
    hrows, except_bind_ok] at hscan
  obtain ⟨l1, l2, hsplit⟩ := List.append_of_mem hmem
  subst hsplit
  rw [List.foldlM_append] at hscan
  cases hf1 : List.foldlM (scanRow db table (some row.name) uniq rels)
      ([], ⟨normalize_table_name table, table, [], []⟩) l1 with
  | error e =>
    rw [hf1] at hscan
    simp at hscan
  | ok st1 =>
    rw [hf1, except_bind_ok, List.foldlM_cons] at hscan
    cases hrow : scanRow db table (some row.name) uniq rels st1 row with
    | error e =>
      rw [hrow] at hscan
      simp at hscan
    | ok st2 =>
      rw [hrow, except_bind_ok] at hscan
      cases hf2 : List.foldlM (scanRow db table (some row.name) uniq rels) st2 l2 with
      | error e =>
        rw [hf2] at hscan
        simp at hscan
      | ok stf =>
        rw [hf2, except_bind_ok] at hscan
        cases hscan
        obtain ⟨res, p, _, hflag, hst⟩ :=
          scanRow_primitive_char db table (some row.name) uniq rels st1 row st2
            hnotrel hrow
        have hnames : ∀ r ∈ l2, r.name ≠ row.name := by
          intro r hr
          rw [List.map_append, List.map_cons] at hnodup
          have h2 := (List.nodup_append.mp hnodup).2.1
          rw [List.nodup_cons] at h2
          intro he
          exact h2.1 (he ▸ List.mem_map_of_mem (fun x => x.name) hr)
        have hpres := scanFold_preserves_primitive_lookup db table (some row.name)
          uniq rels l2 st2 stf row.name hf2 hnames
        refine ⟨p, ?_, ?_⟩
        · rw [hpres, hst]
          exact lookupA_updAssoc_self _ _ _
        · rw [hflag]
          simp

/-- C6, witness: the amended theorem at the database whose table `books`
has the conventional identity primary key `id`. -/
theorem scan_registers_pk_column_explicitly_witness :
    ∃ p, lookupA
        ((scanTable dbPk (chars "books")).toOption.getD defaultQueryModel).query_primitive_model
        (chars "id") = some p ∧
      p.options.primary_key = true :=
  scan_registers_pk_column_explicitly dbPk (chars "books")
    ((scanTable dbPk (chars "books")).toOption.getD defaultQueryModel)
    [chars "id"] [] [] [⟨chars "id", 1, none, none, none, none⟩,
      ⟨chars "title", 9, none, none, none, none⟩]
    ⟨chars "id", 1, none, none, none, none⟩
    rfl rfl rfl rfl rfl (by simp) rfl rfl (by decide)

theorem mem_of_lookupA_some {α : Type} (l : List (Str × α)) (k : Str) (v : α)
    (h : lookupA l k = some v) : (k, v) ∈ l := by
  induction l with
  | nil => simp [lookupA] at h
  | cons p rest ih =>
    obtain ⟨k1, v1⟩ := p
    by_cases hk : (k1 == k) = true
    · have he : k1 = k := eq_of_beq hk
      subst he
      rw [lookupA, if_pos (by simp)] at h
      cases h
      exact List.mem_cons_self _ _
    · rw [Bool.not_eq_true] at hk
      rw [lookupA, if_neg (by simp [hk])] at h
      exact List.mem_cons_of_mem _ (ih h)

/-- Every model reachable in a scanned graph is a `scanTable` output:
its relation slots are unresolved and their keys pairwise distinct. -/
theorem scan_all_tables_inv (db : Database) (g : Graph)
    (hscan : scan_all_tables db = .ok g) :
    ∀ k qm, lookupA g k = some qm →
      (∀ p ∈ qm.query_foregin_model, p.2.to_model = none ∧ p.2.serializer = none) ∧
      (keysOf qm.query_foregin_model).Nodup := by
  unfold scan_all_tables at hscan
  cases hlist : db.get_table_list with
  | error e =>
    rw [hlist] at hscan
    simp at hscan
  | ok infos =>
    rw [hlist, except_bind_ok] at hscan
    unfold scanTables at hscan
    refine foldlM_except_inv _
      (fun g2 => ∀ k qm, lookupA g2 k = some qm →
        (∀ p ∈ qm.query_foregin_model, p.2.to_model = none ∧ p.2.serializer = none) ∧
        (keysOf qm.query_foregin_model).Nodup)
      ?_ _ _ _ hscan ?_
    · intro s t s2 hstep hp
      cases hsc : scanTable db t with
      | error e =>
        rw [hsc] at hstep
        simp at hstep
      | ok qm0 =>
        rw [hsc, except_bind_ok] at hstep
        cases hstep
        intro k qm hlk
        by_cases hk : k = qm0.model_name
        · subst hk
          rw [lookupA_updAssoc_self] at hlk
          obtain ⟨_, _, hrel, hnd⟩ := scanTable_shape db t qm0 hsc
          cases hlk
          exact ⟨hrel, hnd⟩
        · rw [lookupA_updAssoc_other _ _ _ _ hk] at hlk
          exact hp k qm hlk
    · intro k qm hlk
      simp [lookupA] at hlk

/-- If the raw key is absent from the primitive map and every foreign
entry under it produces no field, the merged field dictionary has no
entry for it. -/
theorem get_fields_lookup_none (qm : QueryModel) (rname : Str)
    (hp : lookupA qm.query_primitive_model rname = none)
    (hnd : (keysOf qm.query_foregin_model).Nodup)
    (hfk : ∀ fm, lookupA qm.query_foregin_model rname = some fm →
      fm.make_field = none) :
    lookupA qm.get_fields rname = none := by
  unfold QueryModel.get_fields
  have hbase : ∀ (l : List (Str × QueryPrimitiveFieldModel))
      (acc : List (Str × DjField)), rname ∉ keysOf l → lookupA acc rname = none →
      lookupA (l.foldl (fun acc p =>
        updAssoc acc p.1 (DjField.prim p.2.field_type p.2.options)) acc) rname = none := by
    intro l
    induction l with
    | nil =>
      intro acc _ hacc
      exact hacc
    | cons q rest ih =>
      intro acc hmem hacc
      rw [keysOf_cons] at hmem
      rw [List.foldl_cons]
      refine ih _ (fun hc => hmem (List.mem_cons_of_mem _ hc)) ?_
      rw [lookupA_updAssoc_other _ _ _ _
        (fun he => hmem (by rw [he]; exact List.mem_cons_self _ _))]
      exact hacc
  have hfk2 : ∀ q ∈ qm.query_foregin_model, q.1 = rname → q.2.make_field = none := by
    intro q hq he
    refine hfk q.2 ?_
    have : (rname, q.2) ∈ qm.query_foregin_model := by
      rw [← he]
      exact hq
    exact lookupA_of_mem_of_nodup _ _ _ hnd this
  have hfore : ∀ (l : List (Str × QueryForeginModel)) (acc : List (Str × DjField)),
      (∀ q ∈ l, q.1 = rname → q.2.make_field = none) → lookupA acc rname = none →
      lookupA (l.foldl (fun acc p =>
        match p.2.make_field with
        | some f => updAssoc acc p.1 f
        | none => acc) acc) rname = none := by
    intro l
    induction l with
    | nil =>
      intro acc _ hacc
      exact hacc
    | cons q rest ih =>
      intro acc hq hacc
      rw [List.foldl_cons]
      refine ih _ (fun q2 hq2 => hq q2 (List.mem_cons_of_mem _ hq2)) ?_
      cases hmf : q.2.make_field with
      | none => exact hacc
      | some f =>
        rw [lookupA_updAssoc_other _ _ _ _ ?hne]
        · exact hacc
        case hne =>
          intro he
          have := hq q (List.mem_cons_self _ _) he.symm
          rw [this] at hmf
          cases hmf
  refine hfore _ _ hfk2 (hbase _ _ ?_ rfl)
  exact (lookupA_none_iff_not_mem_keys _ _).mp hp

/-- If the raw key is absent from the primitive map and every foreign
entry under it carries no serializer, the serialized field-name list has
no entry for it. -/
theorem get_serializer_fields_not_mem (qm : QueryModel) (rname : Str)
    (hp : lookupA qm.query_primitive_model rname = none)
    (hnd : (keysOf qm.query_foregin_model).Nodup)
    (hser : ∀ fm, lookupA qm.query_foregin_model rname = some fm →
      fm.serializer = none) :
    rname ∉ qm.get_serializer_fields.1 := by
  unfold QueryModel.get_serializer_fields
  have hser2 : ∀ q ∈ qm.query_foregin_model, q.1 = rname → q.2.serializer = none := by
    intro q hq he
    refine hser q.2 ?_
    have : (rname, q.2) ∈ qm.query_foregin_model := by
      rw [← he]
      exact hq
    exact lookupA_of_mem_of_nodup _ _ _ hnd this
  have hfold : ∀ (l : List (Str × QueryForeginModel))
      (st : List Str × List (Str × SerializerR)),
      (∀ q ∈ l, q.1 = rname → q.2.serializer = none) → rname ∉ st.1 →
      rname ∉ (l.foldl (fun st p =>
        match p.2.serializer with
        | some s => (st.1 ++ [p.1], st.2 ++ [(p.1, s)])
        | none => st) st).1 := by
    intro l
    induction l with
    | nil =>
      intro st _ hst
      exact hst
    | cons q rest ih =>
      intro st hq hst
      rw [List.foldl_cons]
      refine ih _ (fun q2 hq2 => hq q2 (List.mem_cons_of_mem _ hq2)) ?_
      cases hs : q.2.serializer with
      | none => exact hst
      | some s =>
        simp only []
        rw [List.mem_append]
        rintro (hc | hc)
        · exact hst hc
        · rw [List.mem_singleton] at hc
          have := hq q (List.mem_cons_self _ _) hc.symm
          rw [this] at hs
          cases hs
  refine hfold _ _ hser2 ?_
  exact (lookupA_none_iff_not_mem_keys _ _).mp hp

/-- C3: for every relation of a scanned-and-linked graph whose target
model name is absent from the graph after linking, the relation stays
unresolved, contributes no field to the produced Django model, and its
name is absent from the serializer's field list (so serialized rows have
no key for it); the absence is handled without any error path. -/
theorem relation_omission (db : Database) (g : Graph) (k rname : Str)
    (qm : QueryModel) (fm : QueryForeginModel)
    (hscan : scan_all_tables db = .ok g)
    (hk : lookupA (link_foregin_keys g) k = some qm)
    (hr : lookupA qm.query_foregin_model rname = some fm)
    (habs : lookupA (link_foregin_keys g) fm.rel_to = none)
    (hprim : lookupA qm.query_primitive_model rname = none) :
    fm.to_model = none ∧ fm.make_field = none ∧
    lookupA qm.get_fields rname = none ∧
    rname ∉ qm.get_serializer_fields.1 := by
  have habs2 : fm.rel_to ∉ keysOf g := by
    have := (lookupA_none_iff_not_mem_keys _ _).mp habs
    rwa [link_keys] at this
  have hlinked : relAt (link_foregin_keys g) k rname = some fm := by
    unfold relAt
    rw [hk]
    simpa using hr
  have hchar := link_relAt_char g k rname
  rw [hlinked] at hchar
  cases horig : relAt g k rname with
  | none =>
    rw [horig] at hchar
    simp at hchar
  | some fm0 =>
    rw [horig] at hchar
    simp only [Option.map_some'] at hchar
    have hk0 : ∃ qm0, lookupA g k = some qm0 ∧
        lookupA qm0.query_foregin_model rname = some fm0 := by
      unfold relAt at horig
      cases hq0 : lookupA g k with
      | none =>
        rw [hq0] at horig
        simp at horig
      | some qm0 =>
        rw [hq0] at horig
        simp only [Option.some_bind] at horig
        exact ⟨qm0, rfl, horig⟩
    obtain ⟨qm0, hq0, hr0⟩ := hk0
    obtain ⟨hinv, hndkeys⟩ := scan_all_tables_inv db g hscan k qm0 hq0
    have hmem0 := mem_of_lookupA_some _ _ _ hr0
    obtain ⟨hto0, hser0⟩ := hinv (rname, fm0) hmem0
    have hres0 : resolvedState fm0 = (fm0.rel_to, false, false) := by
      unfold resolvedState
      rw [hto0, hser0]
      rfl
    have hval : resolvedState fm = resolveTriple (keysOf g) (resolvedState fm0) := by
      injection hchar
    have hfst : fm.rel_to = fm0.rel_to := by
      have h1 := congrArg Prod.fst hval
      unfold resolveTriple at h1
      rw [hres0] at h1
      by_cases hc : fm0.rel_to ∈ keysOf g
      · simpa [resolvedState, hc] using h1
      · simpa [resolvedState, hc] using h1
    have habs0 : fm0.rel_to ∉ keysOf g := by
      rw [← hfst]
      exact habs2
    have hstate : resolvedState fm = resolvedState fm0 := by
      rw [hval, hres0]
      unfold resolveTriple
      rw [if_neg (by simpa using habs0)]
    have hto : fm.to_model = none := by
      have := congrArg (fun s => s.2.1) hstate
      rw [hres0] at this
      simp only [resolvedState] at this
      exact Option.not_isSome_iff_eq_none.mp (by simp [this])
    have hsernone : fm.serializer = none := by
      have := congrArg (fun s => s.2.2) hstate
      rw [hres0] at this
      simp only [resolvedState] at this
      exact Option.not_isSome_iff_eq_none.mp (by simp [this])
    have hmf : fm.make_field = none := by
      unfold QueryForeginModel.make_field
      rw [hto]
    have hkeys : keysOf qm.query_foregin_model = keysOf qm0.query_foregin_model := by
      have hsk := link_skeleton g k
      rw [hk, hq0, Option.map_some', Option.map_some'] at hsk
      have h1 : modelSkeleton qm = modelSkeleton qm0 := by
        injection hsk
      have h2 := congrArg (fun s => s.2.2.2.map Prod.fst) h1
      unfold modelSkeleton at h2
      simp only [List.map_map] at h2
      exact h2
    have hnd : (keysOf qm.query_foregin_model).Nodup := by
      rw [hkeys]
      exact hndkeys
    refine ⟨hto, hmf, ?_, ?_⟩
    · refine get_fields_lookup_none qm rname hprim hnd ?_
      intro fm2 h2
      rw [hr] at h2
      cases h2
      exact hmf
    · refine get_serializer_fields_not_mem qm rname hprim hnd ?_
      intro fm2 h2
      rw [hr] at h2
      cases h2
      exact hsernone

/-- C3, witness: the omission theorem at the concrete database whose
table `a` has a relation to the absent table `b`. -/
theorem relation_omission_witness :
    fmMissing.to_model = none ∧ fmMissing.make_field = none ∧
    lookupA qmMissing.get_fields (chars "b") = none ∧
    chars "b" ∉ qmMissing.get_serializer_fields.1 :=
  relation_omission dbMissing gMissing (chars "A") (chars "b") qmMissing fmMissing
    rfl rfl rfl rfl rfl

/-- Value-level characterization of the projection dictionary built by
the scan fold: the entry at a model name is the scan of the last
processed table normalizing to that name; absent that, the accumulator's
entry. -/
theorem scanTablesAux_lookup (db : Database) :
    ∀ (ts : List Str) (acc g : Graph) (N : Str),
      List.foldlM (fun g t => do
          let qm ← scanTable db t
          pure (updAssoc g qm.model_name qm)) acc ts = .ok g →
      lookupA g N =
        match (ts.filter (fun t => normalize_table_name t == N)).getLast? with
        | some t => (scanTable db t).toOption
        | none => lookupA acc N := by
  intro ts
  induction ts with
  | nil =>
    intro acc g N h
    rw [List.foldlM_nil] at h
    cases h
    rfl
  | cons t ts ih =>
    intro acc g N h
    rw [List.foldlM_cons] at h
    cases hsc : scanTable db t with
    | error e =>
      rw [hsc] at h
      simp at h
    | ok qm0 =>
      rw [hsc] at h
      simp only [except_bind_ok, except_pure_bind] at h
      have hmn : qm0.model_name = normalize_table_name t :=
        (scanTable_shape db t qm0 hsc).1
      have hih := ih (updAssoc acc qm0.model_name qm0) g N h
      rw [List.filter_cons]
      by_cases hN : (normalize_table_name t == N) = true
      · rw [if_pos hN]
        have heqN : normalize_table_name t = N := eq_of_beq hN
        cases hrest : ts.filter (fun t2 => normalize_table_name t2 == N) with
        | nil =>
          rw [hih, hrest]
          show lookupA (updAssoc acc qm0.model_name qm0) N = _
          rw [hmn, heqN, lookupA_updAssoc_self]
          have hlast : [t].getLast? = some t := rfl
          rw [hlast]
          show some qm0 = (scanTable db t).toOption
          rw [hsc]
          rfl
        | cons a rest2 =>
          rw [hih, hrest, List.getLast?_cons_cons]
          cases hgl : (a :: rest2).getLast? with
          | none => simp at hgl
          | some b => rfl
      · rw [if_neg hN]
        rw [hih]
        have hne : N ≠ qm0.model_name := by
          rw [hmn]
          intro he
          subst he
          exact hN (by simp)
        rw [lookupA_updAssoc_other _ _ _ _ hne]

/-- C10: the schema graph is keyed by normalized model names with
pairwise distinct keys — when several raw tables normalize to one model
name, the table occurring last in sorted raw order silently supplies the
surviving model — and linking preserves the key sequence, so exactly one
model per name reaches linking and querying. -/
theorem graph_keyed_last_table_wins (db : Database) (infos : List TableInfo)
    (g : Graph) (N : Str)
    (hlist : db.get_table_list = .ok infos)
    (hscan : scan_all_tables db = .ok g) :
    (keysOf g).Nodup ∧
    keysOf (link_foregin_keys g) = keysOf g ∧
    lookupA g N =
      match ((sortStrs (dedupFirst
          ((infos.filter (fun i => tableTypes.contains i.type)).map (·.name)))).filter
          (fun t => normalize_table_name t == N)).getLast? with
      | some t => (scanTable db t).toOption
      | none => none := by
  unfold scan_all_tables at hscan
  rw [hlist, except_bind_ok] at hscan
  unfold scanTables at hscan
  refine ⟨?_, link_keys g, ?_⟩
  · refine foldlM_except_inv _ (fun g2 => (keysOf g2).Nodup) ?_ _ _ _ hscan
      (by simp [keysOf])
    intro s t s2 hstep hp
    cases hsc : scanTable db t with
    | error e =>
      rw [hsc] at hstep
      simp at hstep
    | ok qm0 =>
      rw [hsc, except_bind_ok] at hstep
      cases hstep
      exact keysOf_updAssoc_nodup _ _ _ hp
  · have hch := scanTablesAux_lookup db _ [] g N hscan
    rw [hch]
    cases hgl : ((sortStrs (dedupFirst
        ((infos.filter (fun i => tableTypes.contains i.type)).map (·.name)))).filter
        (fun t => normalize_table_name t == N)).getLast? with
    | none => rfl
    | some t => rfl

/-- C10, witness: in `dbDup` the raw tables `aB` and `ab` both normalize
to `Ab`; the surviving model is the scan of `ab`, the later table in
sorted raw order. -/
theorem graph_keyed_last_table_wins_witness :
    (keysOf gDup).Nodup ∧
    keysOf (link_foregin_keys gDup) = keysOf gDup ∧
    lookupA gDup (chars "Ab") =
      match ((sortStrs (dedupFirst
          ((([⟨chars "aB", chars "t"⟩, ⟨chars "ab", chars "t"⟩] : List TableInfo).filter
            (fun i => tableTypes.contains i.type)).map (·.name)))).filter
          (fun t => normalize_table_name t == chars "Ab")).getLast? with
      | some t => (scanTable dbDup t).toOption
      | none => none :=
  graph_keyed_last_table_wins dbDup
    [⟨chars "aB", chars "t"⟩, ⟨chars "ab", chars "t"⟩] gDup (chars "Ab") rfl rfl

/-- Boolean membership agrees with propositional membership on lists of
strings. -/
theorem contains_eq_mem_str (l : List Str) (x : Str) :
    l.contains x = true ↔ x ∈ l := by
  simp

/-- Replacing the seen-list by one with the same members does not change
first-occurrence deduplication. -/
theorem dedupFirstAux_congr :
    ∀ (l seen1 seen2 : List Str), (∀ x, x ∈ seen1 ↔ x ∈ seen2) →
      dedupFirstAux seen1 l = dedupFirstAux seen2 l := by
  intro l
  induction l with
  | nil => intro seen1 seen2 _; rfl
  | cons x xs ih =>
    intro seen1 seen2 hcong
    have hc : seen1.contains x = seen2.contains x := by
      by_cases hx : x ∈ seen2
      · rw [(contains_eq_mem_str seen1 x).mpr ((hcong x).mpr hx),
          (contains_eq_mem_str seen2 x).mpr hx]
      · have h1 : seen1.contains x = false := by
          cases h : seen1.contains x
          · rfl
          · exact absurd ((hcong x).mp ((contains_eq_mem_str seen1 x).mp h)) hx
        have h2 : seen2.contains x = false := by
          cases h : seen2.contains x
          · rfl
          · exact absurd ((contains_eq_mem_str seen2 x).mp h) hx
        rw [h1, h2]
    simp only [dedupFirstAux]
    rw [hc]
    by_cases hx2 : seen2.contains x = true
    · rw [if_pos hx2, if_pos hx2]
      exact ih seen1 seen2 hcong
    · rw [if_neg hx2, if_neg hx2]
      have hext : ∀ y, y ∈ x :: seen1 ↔ y ∈ x :: seen2 := by
        intro y
        simp only [List.mem_cons]
        exact or_congr Iff.rfl (hcong y)
      rw [ih (x :: seen1) (x :: seen2) hext]

/-- The key sequence produced by the scan fold: the accumulator's keys
followed by the normalized table names in processing order, first
occurrences only. -/
theorem scanTablesAux_keys (db : Database) :
    ∀ (ts : List Str) (acc g : Graph),
      List.foldlM (fun g t => do
          let qm ← scanTable db t
          pure (updAssoc g qm.model_name qm)) acc ts = .ok g →
      keysOf g = keysOf acc ++ dedupFirstAux (keysOf acc) (ts.map normalize_table_name) := by
  intro ts
  induction ts with
  | nil =>
    intro acc g h
    rw [List.foldlM_nil] at h
    cases h
    simp [dedupFirstAux]
  | cons t ts ih =>
    intro acc g h
    rw [List.foldlM_cons] at h
    cases hsc : scanTable db t with
    | error e =>
      rw [hsc] at h
      simp at h
    | ok qm0 =>
      rw [hsc] at h
      simp only [except_bind_ok, except_pure_bind] at h
      have hmn : qm0.model_name = normalize_table_name t :=
        (scanTable_shape db t qm0 hsc).1
      have hih := ih (updAssoc acc qm0.model_name qm0) g h
      simp only [List.map_cons, dedupFirstAux]
      by_cases hm : normalize_table_name t ∈ keysOf acc
      · rw [if_pos ((contains_eq_mem_str _ _).mpr hm)]
        rw [hih, keysOf_updAssoc_mem acc qm0.model_name qm0 (hmn ▸ hm)]
      · rw [if_neg (fun hcon => hm ((contains_eq_mem_str _ _).mp hcon))]
        rw [hih, keysOf_updAssoc_not_mem acc qm0.model_name qm0 (hmn ▸ hm), hmn]
        rw [List.append_assoc, List.singleton_append]
        have hext : ∀ y, y ∈ keysOf acc ++ [normalize_table_name t] ↔
            y ∈ normalize_table_name t :: keysOf acc := by
          intro y
          constructor
          · intro hy
            rcases List.mem_append.mp hy with h | h
            · exact List.mem_cons.mpr (Or.inr h)
            · exact List.mem_cons.mpr (Or.inl (List.mem_singleton.mp h))
          · intro hy
            rcases List.mem_cons.mp hy with h | h
            · exact List.mem_append.mpr (Or.inr (List.mem_singleton.mpr h))
            · exact List.mem_append.mpr (Or.inl h)
        rw [dedupFirstAux_congr _ _ _ hext]

/-- The data fold of `select` produces, past the accumulator, one block
of `(model name, row)` pairs per graph entry, in graph order. -/
theorem selectData_blocks (db : Database) :
    ∀ (g : Graph) (acc d : List (Str × Nat)),
      g.foldlM (fun acc p => do
          let rows ← db.table_rows p.2.table_name
          pure (acc ++ rows.map (fun r => (p.1, r)))) acc = .ok d →
      d = acc ++ (g.map (fun p =>
        ((db.table_rows p.2.table_name).toOption.getD []).map (fun n => (p.1, n)))).flatten := by
  intro g
  induction g with
  | nil =>
    intro acc d h
    rw [List.foldlM_nil] at h
    cases h
    simp
  | cons p g2 ih =>
    intro acc d h
    rw [List.foldlM_cons] at h
    cases htr : db.table_rows p.2.table_name with
    | error e =>
      rw [htr] at h
      simp at h
    | ok rows =>
      rw [htr] at h
      simp only [except_bind_ok, except_pure_bind] at h
      have hih := ih (acc ++ rows.map (fun r => (p.1, r))) d h
      have hto : ((Except.ok rows : Except PyErr (List Nat)).toOption.getD []) = rows := rfl
      rw [hih, List.map_cons, List.flatten_cons, htr, hto, List.append_assoc]

/-! # Claim C2 -/

/-- C2: scanning table `emp`, whose foreign-key column `boss_id`
references `emp` itself, records the relation under the `"self"` sentinel
(line 443-447), but `link_foregin_keys` looks the sentinel up in the
projection dictionary, which is keyed by title-cased model names and
never contains `"self"`: the relation's `to` option stays unset and
`make_field` yields no field.  The self relation is therefore NOT
attached and NOT join-eligible, contrary to the claim. -/
theorem self_relation_never_attached :
    (scan_all_tables dbSelf).map (fun g =>
      (link_foregin_keys g).map (fun p => (p.1, p.2.query_foregin_model.map
        (fun q => (q.1, q.2.rel_to, q.2.to_model.isSome, q.2.make_field.isSome))))) =
    .ok [(chars "Emp", [(chars "boss", chars "self", false, false)])] := rfl

/-! # Claim C4 -/

/-- C4: in table `orders` the relation column `customer_id` is registered
under its normalized name `customer`, while the plain column `customer`
is registered under its RAW name (line 494) although the normalizer
returned `customer_0` for it — so the registered names are not pairwise
distinct and not all outputs of the normalizer. -/
theorem registered_names_collide :
    (scan_all_tables dbColl).map (fun g =>
      g.map (fun p => (p.1, p.2.query_foregin_model.map (·.1),
        p.2.query_primitive_model.map (·.1)))) =
    .ok [(chars "Orders", [chars "customer"], [chars "customer"])] ∧
    (normalize_col_name (chars "customer") [chars "customer"] false).map
      (fun r => r.newName) = some (chars "customer_0") := ⟨rfl, rfl⟩

/-! # Claim C5 -/

/-- C5, counterexample: linking is not structurally idempotent.  In the
chain A references B and B references C, the first run attaches to A's
relation a snapshot of B taken before B's own relation was resolved (no
fields), while a second run attaches a snapshot in which B's relation to
C produces a field: the attached target models differ. -/
theorem link_not_idempotent :
    ((relAt (link_foregin_keys gABC) (chars "A") (chars "b_rel")).bind
        (fun fm => fm.to_model)).map (fun m => m.fieldsOf.length) = some 0 ∧
    ((relAt (link_foregin_keys (link_foregin_keys gABC)) (chars "A")
        (chars "b_rel")).bind
        (fun fm => fm.to_model)).map (fun m => m.fieldsOf.length) = some 1 := ⟨rfl, rfl⟩

/-! # Claim C6 -/

/-- C6, counterexample: the conventionally named integer identity primary
key `id` of table `books` IS added to the explicit primitive field list,
with the primary-key flag, exactly like any other column — the scan has
no omission step for conventional identity columns. -/
theorem pk_id_column_added_explicitly :
    (scan_all_tables dbPk).map (fun g =>
      g.map (fun p => (p.1, p.2.query_primitive_model.map
        (fun q => (q.1, q.2.field_type, q.2.options.primary_key))))) =
    .ok [(chars "Books",
      [(chars "id", chars "AutoField", true),
       (chars "title", chars "TextField", false)])] := rfl

/-! # Claim C7 -/

/-- C7, counterexample: when the primary-key-column listing reports the
capability as unsupported (`NotImplementedError`), the scan does NOT
substitute an empty result: `__get_table_primary_key_column_name` has no
handler (lines 338-342), so the whole scan aborts. -/
theorem pk_listing_failure_aborts_scan :
    scan_all_tables dbNoPk = .error .notImplementedError := rfl

/-! # Claim C8 -/

/-- C8, counterexample: when a table's column-description read fails
mid-scan, the `with db.cursor()` block releases the cursor, but
`db.close()` at line 627 stands after the block rather than in a
`finally` clause, so the connection is NOT closed on that exit path. -/
theorem connection_left_open_on_read_failure :
    select dbReadFail = ⟨true, false, .error .operationalError⟩ := rfl

/-! # Claim C9 -/

/-- C9, counterexample: with tables `aa` and `AB`, the response contains
all rows of model `Ab` (from raw table `AB`, first in raw sorted order)
before the rows of model `Aa` (from raw table `aa`), although `Aa` sorts
strictly before `Ab`: the assembled order follows sorted RAW table names,
not sorted normalized names. -/
theorem response_not_in_normalized_order :
    (select dbOrder).response = .ok [(chars "Ab", 0), (chars "Aa", 1)] ∧
    lexLe (chars "Aa") (chars "Ab") = true ∧
    chars "Aa" ≠ chars "Ab" := ⟨rfl, rfl, by decide⟩

/-- C9, amended: the assembled response is grouped by model in graph
order — the sorted RAW table names, normalized, first occurrences kept —
each model contributing the block of all its backing table's rows in
turn. -/
theorem response_follows_raw_table_order (db : Database) (infos : List TableInfo)
    (g : Graph) (d : List (Str × Nat))
    (hlist : db.get_table_list = .ok infos)
    (hscan : scan_all_tables db = .ok g)
    (hdata : selectData db (link_foregin_keys g) = .ok d) :
    keysOf (link_foregin_keys g) =
      dedupFirst ((sortStrs (dedupFirst
        ((infos.filter (fun i => tableTypes.contains i.type)).map (·.name)))).map
        normalize_table_name) ∧
    d = ((link_foregin_keys g).map (fun p =>
      ((db.table_rows p.2.table_name).toOption.getD []).map (fun n => (p.1, n)))).flatten := by
  constructor
  · rw [link_keys]
    unfold scan_all_tables at hscan
    rw [hlist] at hscan
    simp only [except_bind_ok] at hscan
    unfold scanTables at hscan
    have hk := scanTablesAux_keys db _ [] g hscan
    simpa [keysOf, dedupFirst] using hk
  · unfold selectData at hdata
    have hb := selectData_blocks db (link_foregin_keys g) [] d hdata
    simpa using hb

/-- C9, witness: the amended theorem at the concrete database with raw
tables `aa` and `AB`. -/
theorem response_follows_raw_table_order_witness :
    keysOf (link_foregin_keys gOrder) =
      dedupFirst ((sortStrs (dedupFirst
        ((([⟨chars "aa", chars "t"⟩, ⟨chars "AB", chars "t"⟩] : List TableInfo).filter
          (fun i => tableTypes.contains i.type)).map (·.name)))).map
        normalize_table_name) ∧
    dOrder = ((link_foregin_keys gOrder).map (fun p =>
      ((dbOrder.table_rows p.2.table_name).toOption.getD []).map (fun n => (p.1, n)))).flatten :=
  response_follows_raw_table_order dbOrder
    [⟨chars "aa", chars "t"⟩, ⟨chars "AB", chars "t"⟩] gOrder dOrder rfl rfl rfl

/-- C7, amended: of the five introspection operations, only the
foreign-key listing and the constraint listing degrade to empty results
when the capability is missing; a missing primary-key-column listing
aborts the scan of the table (and with it the whole scan). -/
theorem introspection_degrades_partially (db : Database) (table : Str)
    (hrel : db.get_relations table = .error .notImplementedError)
    (hcon : db.get_constraints table = .error .notImplementedError)
    (hpk : db.get_primary_key_columns table = .error .notImplementedError) :
    get_table_relations db table = .ok [] ∧
    get_unique_columns db table = .ok [] ∧
    scanTable db table = .error .notImplementedError := by
  refine ⟨?_, ?_, ?_⟩
  · simp [get_table_relations, hrel]
  · simp [get_unique_columns, hcon]
  · simp [scanTable, get_table_primary_key_column_name, hpk]

/-- C7, witness: the amended theorem at the concrete database whose
introspection capabilities are missing. -/
theorem introspection_degrades_partially_witness :
    get_table_relations dbNoPk (chars "t1") = .ok [] ∧
    get_unique_columns dbNoPk (chars "t1") = .ok [] ∧
    scanTable dbNoPk (chars "t1") = .error .notImplementedError :=
  introspection_degrades_partially dbNoPk (chars "t1") rfl rfl rfl

/-- C8, amended: the connection opened by `select` is closed exactly on
the non-exceptional path (an exception from scanning, linking or a read
propagates past `db.close()`), while the cursor is released whenever it
was acquired. -/
theorem connection_closed_iff_success (db : Database) :
    (select db).connectionClosed = (select db).response.isOk ∧
    (select db).cursorReleased = db.open_cursor.isOk := by
  unfold select
  cases hc : db.open_cursor with
  | error e => exact ⟨rfl, rfl⟩
  | ok u =>
    cases hb : (do
        let g ← scan_all_tables db
        let linked := link_foregin_keys g
        selectData db linked : Except PyErr (List (Str × Nat))) with
    | ok d => exact ⟨rfl, rfl⟩
    | error e => exact ⟨rfl, rfl⟩

end DBQB
